import Mathlib

/-!
Verification of the RLTicTacToe core (`src/tictactoe.py`): the game-state
manager (`TicTacToeManager`) and the adversarial search engine (`Adversary`).

The Python source is translated shallowly:

* `Board` (imported from `board.py`, which is not part of the sources) is
  modelled from the specification.
* Python lists become `List`, machine integers become `Int`/`Nat`.
* Python list indexing `l[i]` (which supports negative indices and raises
  `IndexError` out of range) is modelled by `pyGet`; the accesses performed by
  the code under verification are proved to stay in the non-negative
  in-range regime.
* The recursion of `Adversary.search` is not structurally decreasing in any
  single argument of the Python function; it terminates because every
  recursive call fills one empty cell.  The embedding therefore threads an
  explicit fuel that is instantiated with the board length, which is proved
  sufficient for every state whose `turn` is `1` or `-1`.
-/

namespace RLTicTacToe

/-- Modelled from the spec: the repository imports `Board` from `board.py`,
which is absent from the sources.  Spec §3: `size` is the side length and
`cells`/`board` is a row-major flat list of `size*size` integers. -/
structure Board where
  size : Nat
  board : List Int
deriving DecidableEq, Repr

/-- Modelled from the spec: `create(size)` allocates `size*size` cells set
to `0` (spec §4.1). -/
def Board.create (size : Nat) : Board :=
  { size := size, board := List.replicate (size * size) 0 }

/-- Modelled from the spec: `create_board` / `reset()` sets every cell to
`0` (spec §4.1); called by `TicTacToeManager.reset_board`. -/
def Board.create_board (b : Board) : Board :=
  { b with board := List.replicate (b.size * b.size) 0 }

/-- Python list read `l[i]`: a negative index `-k` addresses `l[n-k]`.  An
index out of `[-n, n)` raises `IndexError` in Python; this total model
returns `0` there, and the walks of the win check are proved (C4) never to
leave the non-negative in-range regime. -/
def pyGet (l : List Int) (i : Int) : Int :=
  if 0 ≤ i then l.getD i.toNat 0
  else if -i ≤ (l.length : Int) then l.getD (l.length - (-i).toNat) 0
  else 0

/-- `TicTacToeManager.__init__`'s fields (`src/tictactoe.py`, lines 5-12). -/
structure TicTacToeManager where
  board : Board
  crosses : List Nat
  noughts : List Nat
  turn : Int
  pieces_to_win : Int
deriving DecidableEq, Repr

/-- `TicTacToeManager.__init__`: `if not pieces_to_win: pieces_to_win =
board.size` — Python truthiness defaults both `None` and `0` to the board
size.  No further validation is performed. -/
def TicTacToeManager.init (board : Board) (pieces_to_win : Option Int) : TicTacToeManager :=
  let k : Int :=
    match pieces_to_win with
    | none => (board.size : Int)
    | some p => if p = 0 then (board.size : Int) else p
  { board := board, crosses := [], noughts := [], turn := 1, pieces_to_win := k }

/-- `TicTacToeManager.reset_board` (lines 14-15): only
`self.board.create_board()` — the history lists and `turn` are untouched. -/
def TicTacToeManager.reset_board (m : TicTacToeManager) : TicTacToeManager :=
  { m with board := m.board.create_board }

/-- `TicTacToeManager.make_move` (lines 17-23). -/
def TicTacToeManager.make_move (m : TicTacToeManager) (cell : Nat) : TicTacToeManager :=
  let m' :=
    if m.turn = 1 then { m with crosses := m.crosses ++ [cell] }
    else { m with noughts := m.noughts ++ [cell] }
  { m' with
    board := { m'.board with board := m'.board.board.set cell m.turn },
    turn := m.turn * -1 }

/-- `TicTacToeManager.unmake_move` (lines 25-31).  Python `list.remove`
drops the first occurrence (and raises `ValueError` when the element is
missing, a case none of the verified call sites reach). -/
def TicTacToeManager.unmake_move (m : TicTacToeManager) (cell : Nat) : TicTacToeManager :=
  let m' :=
    if m.turn = -1 then { m with crosses := m.crosses.erase cell }
    else { m with noughts := m.noughts.erase cell }
  { m' with
    board := { m'.board with board := m'.board.board.set cell 0 },
    turn := m.turn * -1 }

/-- The enumeration loop of `find_legal_moves`, collecting the indices
(counting from `i`) of the cells holding `0`. -/
def findLegalAux : List Int → Nat → List Nat
  | [], _ => []
  | c :: rest, i =>
    if c = 0 then i :: findLegalAux rest (i + 1) else findLegalAux rest (i + 1)

/-- `TicTacToeManager.find_legal_moves` (lines 33-39). -/
def TicTacToeManager.find_legal_moves (m : TicTacToeManager) : List Nat :=
  findLegalAux m.board.board 0

/-- The direction tuple of `check_win_at_cell` (lines 51-53). -/
def directions : List (Int × Int) :=
  [(-1, -1), (0, -1), (1, -1), (-1, 0), (1, 0), (-1, 1), (0, 1), (1, 1)]

/-- `TicTacToeManager.check_borders` (lines 73-75).  Python `%` and `//` on
a positive modulus agree with Lean's `%` (`Int.emod`) and `/` (`Int.ediv`). -/
def TicTacToeManager.check_borders (m : TicTacToeManager) (cell : Int) (d : Int × Int) : Bool :=
  let size : Int := m.board.size
  let x := cell % size
  let y := cell / size
  decide (0 ≤ x + d.1) && decide (x + d.1 < size) &&
    decide (0 ≤ y + d.2) && decide (y + d.2 < size)

/-- The inner `for i in range(1, self.pieces_to_win)` loop of
`check_win_at_cell` (lines 57-70), instrumented: besides the win flag
(`true` iff the loop ran to completion, i.e. Python's `for`/`else` branch)
it returns the list of board indices read, in order.  `next_cell` is the
index entering the iteration, `i` the 1-based step counter, `steps` the
number of loop iterations left. -/
def winWalk (m : TicTacToeManager) (cell cc : Int) (d : Int × Int) :
    Int → Nat → Nat → Bool × List Int
  | _, _, 0 => (true, [])
  | next_cell, i, steps + 1 =>
    if m.check_borders next_cell d then
      let nc : Int := cell + (d.1 + d.2 * (m.board.size : Int)) * (i : Int)
      let content := pyGet m.board.board nc
      if content = cc then
        let r := winWalk m cell cc d nc (i + 1) steps
        (r.1, nc :: r.2)
      else (false, [nc])
    else (false, [])

/-- `TicTacToeManager.check_win_at_cell` (lines 49-71): probe the 8
directions from `cell`; return `1` as soon as one walk completes, else `0`. -/
def TicTacToeManager.check_win_at_cell (m : TicTacToeManager) (cell : Nat) : Int :=
  let cc := pyGet m.board.board (cell : Int)
  if directions.any
      (fun d => (winWalk m (cell : Int) cc d (cell : Int) 1 (m.pieces_to_win - 1).toNat).1)
  then 1 else 0

/-- The loop of `check_win` (lines 43-46): return the first nonzero
`check_win_at_cell` over the given history list, else `0`. -/
def TicTacToeManager.check_win_list (m : TicTacToeManager) : List Nat → Int
  | [] => 0
  | c :: rest =>
    let finished := m.check_win_at_cell c
    if finished ≠ 0 then finished else m.check_win_list rest

/-- `TicTacToeManager.check_win` (lines 41-47): scan the history list of
the player who just moved (`crosses` when `turn == -1`, else `noughts`). -/
def TicTacToeManager.check_win (m : TicTacToeManager) : Int :=
  m.check_win_list (if m.turn = -1 then m.crosses else m.noughts)

/-- The value domain of the search: Python integers extended by the float
infinities `float('-infinity')` / `float('+infinity')` used as initial
`alpha` / `beta`. -/
inductive XVal where
  | ninf : XVal
  | fin : Int → XVal
  | pinf : XVal
deriving DecidableEq, Repr

/-- Negation on search values; Python `-x` on the mixed int/float domain. -/
def XVal.neg : XVal → XVal
  | .ninf => .pinf
  | .fin n => .fin (-n)
  | .pinf => .ninf

/-- `a <= b` on search values. -/
def XVal.le : XVal → XVal → Bool
  | .ninf, _ => true
  | _, .pinf => true
  | .fin a, .fin b => decide (a ≤ b)
  | .pinf, .fin _ => false
  | .pinf, .ninf => false
  | .fin _, .ninf => false

/-- `a < b` on search values. -/
def XVal.lt : XVal → XVal → Bool
  | .ninf, .ninf => false
  | .ninf, _ => true
  | .pinf, _ => false
  | _, .pinf => true
  | .fin a, .fin b => decide (a < b)
  | .fin _, .ninf => false

/-- Binary maximum on search values (used only by the verification, to
state the running maximum of the alpha-beta loop). -/
def XVal.max (a b : XVal) : XVal := if XVal.le a b then b else a

/-- The `for cell in available_moves` loop of `Adversary.search` (lines
95-106): apply the move, recurse through `rec` (the one-level-deeper search)
with negated swapped bounds, undo the move (implicit: the mutated state is
only used for the recursive call), fail-hard beta cutoff, raise `alpha`. -/
def searchGo (rec : TicTacToeManager → Int → XVal → XVal → XVal)
    (m : TicTacToeManager) (depth : Int) (beta : XVal) :
    List Nat → XVal → XVal
  | [], alpha => alpha
  | cell :: rest, alpha =>
    let evaluation := XVal.neg (rec (m.make_move cell) (depth - 1) (XVal.neg beta) (XVal.neg alpha))
    if XVal.le beta evaluation then beta
    else
      if XVal.lt alpha evaluation then searchGo rec m depth beta rest evaluation
      else searchGo rec m depth beta rest alpha

/-- `Adversary.search` (lines 82-108), fuelled: the Python recursion
terminates because each recursive call fills one empty cell, so a fuel of
`countEmpty` (a fortiori: the board length) is enough; the fuel-exhausted
branch (returning `alpha`) is proved unreachable under that bound. -/
def searchFuel : Nat → TicTacToeManager → Int → XVal → XVal → XVal
  | fuel, m, depth, alpha, beta =>
    if depth = 0 then XVal.fin 0
    else
      let win := m.check_win
      if win ≠ 0 then XVal.fin (win + depth)
      else
        let available_moves := m.find_legal_moves
        if available_moves.isEmpty then XVal.fin 0
        else
          match fuel with
          | 0 => alpha
          | fuel' + 1 => searchGo (searchFuel fuel') m depth beta available_moves alpha

/-- `Adversary.search` on a manager state, with the sufficient fuel. -/
def Adversary.search (m : TicTacToeManager) (depth : Int) (alpha beta : XVal) : XVal :=
  searchFuel m.board.board.length m depth alpha beta

/-- The `for move in moves` loop of `Adversary.search_root` (lines
115-124): evaluate each legal move with the default full-width bounds and
keep the first strictly-best one. -/
def searchRootGo (m : TicTacToeManager) (depth : Int) :
    List Nat → XVal → Option Nat → Option Nat
  | [], _, best_move => best_move
  | move :: rest, best_eval, best_move =>
    let evaluation := Adversary.search (m.make_move move) (depth - 1) XVal.ninf XVal.pinf
    if XVal.lt best_eval evaluation then searchRootGo m depth rest evaluation (some move)
    else searchRootGo m depth rest best_eval best_move

/-- `Adversary.search_root` (lines 110-125): `best_eval` starts at
`float('-infinity')`, `best_move` at `None`. -/
def Adversary.search_root (m : TicTacToeManager) (depth : Int) : Option Nat :=
  searchRootGo m depth m.find_legal_moves XVal.ninf none

/-- The unpruned exhaustive negamax over the same terminal values as
`Adversary.search` (reference model for the alpha-beta equivalence claim):
same depth-zero, win and no-move terminals, and the value of an inner node
is the maximum over the legal moves of the negated value of the child. -/
def negamaxFuel : Nat → TicTacToeManager → Int → Int
  | fuel, m, depth =>
    if depth = 0 then 0
    else
      let win := m.check_win
      if win ≠ 0 then win + depth
      else
        match m.find_legal_moves with
        | [] => 0
        | c :: rest =>
          match fuel with
          | 0 => 0
          | fuel' + 1 =>
            List.foldl
              (fun a c' => Max.max a (-(negamaxFuel fuel' (m.make_move c') (depth - 1))))
              (-(negamaxFuel fuel' (m.make_move c) (depth - 1))) rest

/-- The unpruned exhaustive negamax on a manager state, with the
sufficient fuel. -/
def negamaxRef (m : TicTacToeManager) (depth : Int) : Int :=
  negamaxFuel m.board.board.length m depth

/-- The states reachable by the program: a manager constructed on a fresh
board (`TicTacToeManager(Board(size), pieces_to_win)`), mutated by
`make_move` on cells that `find_legal_moves` offers.  (`unmake_move` in
strict LIFO discipline returns to an earlier state of this very set, and
is therefore not a separate constructor.) -/
inductive Reachable : TicTacToeManager → Prop where
  | init : ∀ (size : Nat) (pieces_to_win : Option Int),
      Reachable (TicTacToeManager.init (Board.create size) pieces_to_win)
  | move : ∀ (m : TicTacToeManager) (cell : Nat), Reachable m →
      cell ∈ m.find_legal_moves → Reachable (m.make_move cell)

/-! ### The reachable-state invariant -/
/-- The data-model invariants (spec §3) maintained by legal play. -/
structure Inv (m : TicTacToeManager) : Prop where
  len_eq : m.board.board.length = m.board.size * m.board.size
  turn_ok : m.turn = 1 ∨ m.turn = -1
  crosses_mark : ∀ c ∈ m.crosses, c < m.board.board.length ∧ m.board.board.getD c 0 = 1
  noughts_mark : ∀ c ∈ m.noughts, c < m.board.board.length ∧ m.board.board.getD c 0 = -1
  cross_mem : ∀ c : Nat, c < m.board.board.length → m.board.board.getD c 0 = 1 → c ∈ m.crosses
  nought_mem : ∀ c : Nat, c < m.board.board.length → m.board.board.getD c 0 = -1 → c ∈ m.noughts

/-! ### Fuel accounting: each move fills one empty cell -/
/-- Number of empty cells: the measure that bounds the search recursion. -/
def countEmpty (m : TicTacToeManager) : Nat := m.board.board.count 0

/-- The concrete manager of the gym driver: `TicTacToeManager(Board(3), 3)`. -/
def sample0 : TicTacToeManager := TicTacToeManager.init (Board.create 3) (some 3)

/-! ### Grid geometry of the win-check walk -/
/-- Column of cell `c` on a grid of side `size`. -/
def cellX (size c : Nat) : Int := (c % size : Nat)

/-- Row of cell `c` on a grid of side `size`. -/
def cellY (size c : Nat) : Int := (c / size : Nat)

/-- Column of the `i`-th cell of the ray from `c` in direction `d`. -/
def rayX (size c : Nat) (d : Int × Int) (i : Nat) : Int := cellX size c + d.1 * i

/-- Row of the `i`-th cell of the ray from `c` in direction `d`. -/
def rayY (size c : Nat) (d : Int × Int) (i : Nat) : Int := cellY size c + d.2 * i

/-- Row-major index of the `i`-th cell of the ray from `c` in direction `d`. -/
def rayIdx (size c : Nat) (d : Int × Int) (i : Nat) : Int :=
  rayY size c d i * size + rayX size c d i

/-- The `i`-th cell of the ray lies on the grid (both coordinates in range):
this is the "no wraparound" condition for the index arithmetic. -/
def rayInGrid (size c : Nat) (d : Int × Int) (i : Nat) : Prop :=
  0 ≤ rayX size c d i ∧ rayX size c d i < size ∧ 0 ≤ rayY size c d i ∧ rayY size c d i < size

instance (size c : Nat) (d : Int × Int) (i : Nat) : Decidable (rayInGrid size c d i) := by
  unfold rayInGrid
  infer_instance

/-- The concrete scenario of the spec: `+1` at cells 0, 4, 8 alternated with
`-1` at cells 1, 2 (diagonal win for the crosses). -/
def scn : TicTacToeManager :=
  ((((sample0.make_move 0).make_move 1).make_move 4).make_move 2).make_move 8

/-- The walk of the C4 witness: scenario state, cell 0, direction `(1, 1)`. -/
def scnWalk : Bool × List Int :=
  winWalk scn ((0 : Nat) : Int) (pyGet scn.board.board ((0 : Nat) : Int)) (1, 1)
    ((0 : Nat) : Int) 1 (scn.pieces_to_win - 1).toNat

/-! ### The specification-side win predicate (C3) -/
/-- The history list of the player with the given mark. -/
def histOf (m : TicTacToeManager) (mark : Int) : List Nat :=
  if mark = 1 then m.crosses else m.noughts

/-- Spec-side notion: `K` consecutive cells of mark `mark`, in direction `d`
starting from grid coordinates `(x0, y0)`, all on the grid. -/
def LineWin (b : Board) (mark : Int) (K : Nat) (x0 y0 : Int) (d : Int × Int) : Prop :=
  ∀ i : Nat, i < K →
    (0 ≤ x0 + d.1 * i ∧ x0 + d.1 * i < b.size ∧ 0 ≤ y0 + d.2 * i ∧ y0 + d.2 * i < b.size) ∧
    b.board.getD ((y0 + d.2 * i) * b.size + (x0 + d.1 * i)).toNat 0 = mark

/-- Spec-side win condition: the player who just moved (mark `-turn`) has
`winLength` consecutive cells of their mark in one of the 8 directions
through one of their placed cells (the placed cell is the `t`-th cell of
the line). -/
def SpecWin (m : TicTacToeManager) : Prop :=
  ∃ c ∈ histOf m (-m.turn), ∃ d ∈ directions, ∃ t : Nat,
    t < m.pieces_to_win.toNat ∧
    LineWin m.board (-m.turn) m.pieces_to_win.toNat
      (cellX m.board.size c - d.1 * t) (cellY m.board.size c - d.2 * t) d

/-- A `GameState` is consistent with its history lists when every history
cell is in range and holds the respective mark, and conversely every marked
board cell is recorded in the respective history list. -/
def HistoryConsistent (m : TicTacToeManager) : Prop :=
  m.board.board.length = m.board.size * m.board.size ∧
  (∀ c ∈ m.crosses, c < m.board.board.length ∧ m.board.board.getD c 0 = 1) ∧
  (∀ c ∈ m.noughts, c < m.board.board.length ∧ m.board.board.getD c 0 = -1) ∧
  (∀ c : Nat, c < m.board.board.length → m.board.board.getD c 0 = 1 → c ∈ m.crosses) ∧
  (∀ c : Nat, c < m.board.board.length → m.board.board.getD c 0 = -1 → c ∈ m.noughts)

instance (m : TicTacToeManager) : Decidable (HistoryConsistent m) := by
  unfold HistoryConsistent
  infer_instance

/-! ### Fail-hard alpha-beta soundness -/
/-- The fail-hard contract of `searchFuel` against the unpruned negamax
value `v = negamaxFuel fuel m depth`: a result no greater than `alpha`
when `v ≤ alpha`, no smaller than `beta` when `v ≥ beta`, and exactly `v`
when `alpha < v < beta`. -/
def FailHard (fuel : Nat) (m : TicTacToeManager) (depth : Int) (alpha beta : XVal) : Prop :=
  (XVal.le (XVal.fin (negamaxFuel fuel m depth)) alpha = true →
    XVal.le (searchFuel fuel m depth alpha beta) alpha = true) ∧
  (XVal.le beta (XVal.fin (negamaxFuel fuel m depth)) = true →
    XVal.le beta (searchFuel fuel m depth alpha beta) = true) ∧
  (XVal.lt alpha (XVal.fin (negamaxFuel fuel m depth)) = true →
    XVal.lt (XVal.fin (negamaxFuel fuel m depth)) beta = true →
    searchFuel fuel m depth alpha beta = XVal.fin (negamaxFuel fuel m depth))

/-- Running maximum of the alpha-beta loop over the pending moves,
seeded with the current `alpha`, using the unpruned child values. -/
def loopVals (fuel : Nat) (m : TicTacToeManager) (depth : Int)
    (ms : List Nat) (alpha : XVal) : XVal :=
  ms.foldl
    (fun a c => XVal.max a (XVal.fin (-(negamaxFuel fuel (m.make_move c) (depth - 1))))) alpha

/-! ### `search_root` picks the first-enumerated maximal move (C7) -/
/-- The evaluation `search_root` computes for a candidate move: `search`
on the mutated state with one ply less and the default full-width bounds. -/
def rootEval (m : TicTacToeManager) (depth : Int) (c : Nat) : XVal :=
  Adversary.search (m.make_move c) (depth - 1) XVal.ninf XVal.pinf

/-! ### The depth-9 self-play game is not a draw (C8) -/
/-- The position after the self-play prefix 0, 2, 3 (crosses 0, 3; noughts 2). -/
def c8m3 : TicTacToeManager := ((sample0.make_move 0).make_move 2).make_move 3

/-- After the 4th self-play move 6. -/
def c8m4 : TicTacToeManager := c8m3.make_move 6

/-- After the 5th self-play move 4. -/
def c8m5 : TicTacToeManager := c8m4.make_move 4

/-- After the 6th self-play move 8. -/
def c8m6 : TicTacToeManager := c8m5.make_move 8

/-! ### The shared default board (C10) -/
/-- A minimal heap of `Board` objects.  Python evaluates a function's
default argument once, when the enclosing `class` statement executes;
`TicTacToeManager.__init__`'s `board: Board = Board(3)` therefore creates a
single `Board` object shared by every construction that omits the argument.
The heap makes that aliasing observable in the embedding. -/
structure BoardHeap where
  boards : List Board
deriving DecidableEq, Repr

/-- Dereference a board. -/
def BoardHeap.read (h : BoardHeap) (r : Nat) : Board := h.boards.getD r (Board.create 0)

/-- Write through a reference. -/
def BoardHeap.write (h : BoardHeap) (r : Nat) (b : Board) : BoardHeap := ⟨h.boards.set r b⟩

/-- A manager whose `board` field is a reference into the heap; the other
fields are per-instance values, as in `__init__`. -/
structure ManagerRef where
  boardRef : Nat
  crosses : List Nat
  noughts : List Nat
  turn : Int
  pieces_to_win : Int
deriving DecidableEq, Repr

/-- The address of the class-level default `Board(3)`. -/
def defaultBoardRef : Nat := 0

/-- The heap right after the `class TicTacToeManager` statement evaluated
its default argument `Board(3)`. -/
def classHeap : BoardHeap := ⟨[Board.create 3]⟩

/-- `TicTacToeManager()` with the argument omitted: the new instance
references the one shared default board; `pieces_to_win` defaults to that
board's size. -/
def ManagerRef.initDefault (h : BoardHeap) : ManagerRef :=
  ⟨defaultBoardRef, [], [], 1, ((h.read defaultBoardRef).size : Int)⟩

/-- `make_move` through the reference: `self.board.board[cell] = self.turn`
mutates the referenced `Board` object on the heap. -/
def ManagerRef.make_move (h : BoardHeap) (m : ManagerRef) (cell : Nat) :
    BoardHeap × ManagerRef :=
  let m' :=
    if m.turn = 1 then { m with crosses := m.crosses ++ [cell] }
    else { m with noughts := m.noughts ++ [cell] }
  let b := h.read m.boardRef
  (h.write m.boardRef { b with board := b.board.set cell m.turn },
   { m' with turn := m.turn * -1 })

/-- `find_legal_moves` through the reference. -/
def ManagerRef.find_legal_moves (h : BoardHeap) (m : ManagerRef) : List Nat :=
  findLegalAux (h.read m.boardRef).board 0

/-! ### Basic list lemmas -/
theorem getD_set_self {l : List Int} {i : Nat} (h : i < l.length) (v : Int) :
    (l.set i v).getD i 0 = v := by
  simp [List.getD_eq_getElem?_getD, List.getElem?_set, h]

theorem getD_set_ne {l : List Int} {i j : Nat} (h : i ≠ j) (v : Int) :
    (l.set i v).getD j 0 = l.getD j 0 := by
  simp [List.getD_eq_getElem?_getD, List.getElem?_set, h]

theorem set_getD_zero : ∀ (l : List Int) (i : Nat), l.getD i 0 = 0 → l.set i 0 = l := by
  intro l
  induction l with
  | nil => intro i _; simp
  | cons c rest ih =>
    intro i h
    cases i with
    | zero => simp_all [List.getD_cons_zero]
    | succ i =>
      rw [List.getD_cons_succ] at h
      simp only [List.set]
      rw [ih i h]

theorem getD_lt_length {l : List Int} {i : Nat} (h : l.getD i 0 ≠ 0) : i < l.length := by
  by_contra hge
  rw [List.getD_eq_default] at h
  · exact h rfl
  · omega

/-! ### `find_legal_moves` -/
theorem mem_findLegalAux :
    ∀ (l : List Int) (i j : Nat),
      j ∈ findLegalAux l i ↔ ∃ k, k < l.length ∧ l.getD k 0 = 0 ∧ j = i + k := by
  intro l
  induction l with
  | nil => intro i j; simp [findLegalAux]
  | cons c rest ih =>
    intro i j
    constructor
    · intro h
      by_cases hc : c = 0
      · rw [findLegalAux, if_pos hc, List.mem_cons] at h
        rcases h with rfl | h
        · exact ⟨0, by simp [List.getD_cons_zero, hc]⟩
        · obtain ⟨k, hk, hk0, rfl⟩ := (ih (i + 1) _).1 h
          refine ⟨k + 1, by simpa using hk, ?_, by omega⟩
          simpa [List.getD_cons_succ] using hk0
      · rw [findLegalAux, if_neg hc] at h
        obtain ⟨k, hk, hk0, rfl⟩ := (ih (i + 1) _).1 h
        refine ⟨k + 1, by simpa using hk, ?_, by omega⟩
        simpa [List.getD_cons_succ] using hk0
    · rintro ⟨k, hk, hk0, rfl⟩
      cases k with
      | zero =>
        rw [List.getD_cons_zero] at hk0
        rw [findLegalAux, if_pos hk0]
        simp
      | succ k =>
        rw [List.getD_cons_succ] at hk0
        have hmem : i + 1 + k ∈ findLegalAux rest (i + 1) :=
          (ih (i + 1) _).2 ⟨k, by simpa using hk, hk0, rfl⟩
        have harith : i + (k + 1) = i + 1 + k := by omega
        rw [harith, findLegalAux]
        by_cases hc : c = 0
        · rw [if_pos hc]; exact List.mem_cons_of_mem _ hmem
        · rw [if_neg hc]; exact hmem

theorem mem_find_legal_moves {m : TicTacToeManager} {j : Nat} :
    j ∈ m.find_legal_moves ↔ j < m.board.board.length ∧ m.board.board.getD j 0 = 0 := by
  rw [TicTacToeManager.find_legal_moves, mem_findLegalAux]
  constructor
  · rintro ⟨k, hk, hk0, rfl⟩
    rw [Nat.zero_add]
    exact ⟨hk, hk0⟩
  · rintro ⟨hj, hj0⟩; exact ⟨j, hj, hj0, by omega⟩

theorem findLegalAux_ge : ∀ (l : List Int) (i j : Nat), j ∈ findLegalAux l i → i ≤ j := by
  intro l
  induction l with
  | nil => intro i j h; simp [findLegalAux] at h
  | cons c rest ih =>
    intro i j h
    by_cases hc : c = 0
    · rw [findLegalAux, if_pos hc, List.mem_cons] at h
      rcases h with rfl | h
      · exact le_refl j
      · exact le_trans (Nat.le_succ i) (ih (i + 1) j h)
    · rw [findLegalAux, if_neg hc] at h
      exact le_trans (Nat.le_succ i) (ih (i + 1) j h)

theorem sorted_findLegalAux : ∀ (l : List Int) (i : Nat),
    List.Sorted (· < ·) (findLegalAux l i) := by
  intro l
  induction l with
  | nil => intro i; simp [findLegalAux]
  | cons c rest ih =>
    intro i
    by_cases hc : c = 0
    · rw [findLegalAux, if_pos hc, List.sorted_cons]
      exact ⟨fun j hj => lt_of_lt_of_le (Nat.lt_succ_self i) (findLegalAux_ge rest (i + 1) j hj),
        ih (i + 1)⟩
    · rw [findLegalAux, if_neg hc]
      exact ih (i + 1)

theorem sorted_find_legal_moves (m : TicTacToeManager) :
    List.Sorted (· < ·) m.find_legal_moves :=
  sorted_findLegalAux m.board.board 0

theorem length_findLegalAux : ∀ (l : List Int) (i : Nat),
    (findLegalAux l i).length = l.count 0 := by
  intro l
  induction l with
  | nil => intro i; simp [findLegalAux]
  | cons c rest ih =>
    intro i
    by_cases hc : c = 0
    · rw [findLegalAux, if_pos hc]
      simp [List.count_cons, hc, ih (i + 1)]
    · rw [findLegalAux, if_neg hc]
      simp [List.count_cons, hc, ih (i + 1)]

/-- Empty cells plus occupied cells exhaust the board. -/
theorem count_zero_add_filter (l : List Int) :
    l.count 0 + (l.filter (fun v => v ≠ 0)).length = l.length := by
  induction l with
  | nil => simp
  | cons c rest ih =>
    simp only [ne_eq, decide_not] at ih ⊢
    by_cases hc : c = 0 <;>
      simp [List.count_cons, List.filter_cons, hc, ih] <;> omega

/-! ### `make_move` field computations -/
theorem make_move_board (m : TicTacToeManager) (cell : Nat) :
    (m.make_move cell).board.board = m.board.board.set cell m.turn := by
  unfold TicTacToeManager.make_move
  by_cases h : m.turn = 1 <;> simp [h]

theorem make_move_size (m : TicTacToeManager) (cell : Nat) :
    (m.make_move cell).board.size = m.board.size := by
  unfold TicTacToeManager.make_move
  by_cases h : m.turn = 1 <;> simp [h]

theorem make_move_turn (m : TicTacToeManager) (cell : Nat) :
    (m.make_move cell).turn = m.turn * -1 := by
  unfold TicTacToeManager.make_move
  by_cases h : m.turn = 1 <;> simp [h]

theorem make_move_pieces (m : TicTacToeManager) (cell : Nat) :
    (m.make_move cell).pieces_to_win = m.pieces_to_win := by
  unfold TicTacToeManager.make_move
  by_cases h : m.turn = 1 <;> simp [h]

theorem make_move_crosses_pos (m : TicTacToeManager) (cell : Nat) (h : m.turn = 1) :
    (m.make_move cell).crosses = m.crosses ++ [cell] ∧
      (m.make_move cell).noughts = m.noughts := by
  unfold TicTacToeManager.make_move
  simp [h]

theorem make_move_crosses_neg (m : TicTacToeManager) (cell : Nat) (h : ¬ m.turn = 1) :
    (m.make_move cell).crosses = m.crosses ∧
      (m.make_move cell).noughts = m.noughts ++ [cell] := by
  unfold TicTacToeManager.make_move
  simp [h]

theorem make_move_length (m : TicTacToeManager) (cell : Nat) :
    (m.make_move cell).board.board.length = m.board.board.length := by
  rw [make_move_board]; exact List.length_set ..

theorem inv_init (b : Board) (k : Option Int)
    (hb : b.board = List.replicate (b.size * b.size) 0) :
    Inv (TicTacToeManager.init b k) := by
  have hget : ∀ c : Nat, b.board.getD c 0 = 0 := by
    intro c
    rw [hb]
    rcases lt_or_ge c (b.size * b.size) with h | h
    · simp [List.getD_eq_getElem?_getD, List.getElem?_replicate, h]
    · rw [List.getD_eq_default]
      simpa using h
  refine ⟨?_, Or.inl rfl, ?_, ?_, ?_, ?_⟩
  · show b.board.length = b.size * b.size
    rw [hb, List.length_replicate]
  · intro c hc
    exact absurd hc (List.not_mem_nil c)
  · intro c hc
    exact absurd hc (List.not_mem_nil c)
  · intro c _ h1
    have h0 : b.board.getD c 0 = 0 := hget c
    have h1' : b.board.getD c 0 = 1 := h1
    rw [h0] at h1'
    exact absurd h1' (by norm_num)
  · intro c _ h1
    have h0 : b.board.getD c 0 = 0 := hget c
    have h1' : b.board.getD c 0 = -1 := h1
    rw [h0] at h1'
    exact absurd h1' (by norm_num)

theorem inv_make_move {m : TicTacToeManager} (hm : Inv m) {cell : Nat}
    (hcell : cell ∈ m.find_legal_moves) : Inv (m.make_move cell) := by
  obtain ⟨hlt, hempty⟩ := mem_find_legal_moves.1 hcell
  have hboard := make_move_board m cell
  have hlen := make_move_length m cell
  rcases hm.turn_ok with hturn | hturn
  · obtain ⟨hcr, hno⟩ := make_move_crosses_pos m cell hturn
    refine ⟨by rw [hlen, make_move_size]; exact hm.len_eq, ?_, ?_, ?_, ?_, ?_⟩
    · rw [make_move_turn, hturn]; right; rfl
    · intro c hc
      rw [hcr, List.mem_append, List.mem_singleton] at hc
      rcases hc with hc | rfl
      · obtain ⟨h1, h2⟩ := hm.crosses_mark c hc
        have hne : cell ≠ c := fun he => by rw [he] at hempty; rw [hempty] at h2; exact absurd h2 (by norm_num)
        rw [hlen, hboard, getD_set_ne hne]
        exact ⟨h1, h2⟩
      · rw [hlen, hboard, getD_set_self hlt, hturn]
        exact ⟨hlt, rfl⟩
    · intro c hc
      rw [hno] at hc
      obtain ⟨h1, h2⟩ := hm.noughts_mark c hc
      have hne : cell ≠ c := fun he => by rw [he] at hempty; rw [hempty] at h2; exact absurd h2 (by norm_num)
      rw [hlen, hboard, getD_set_ne hne]
      exact ⟨h1, h2⟩
    · intro c hc h1
      rw [hcr, List.mem_append, List.mem_singleton]
      by_cases hce : cell = c
      · right; exact hce.symm
      · left
        rw [hboard, getD_set_ne hce] at h1
        exact hm.cross_mem c (by rwa [hlen] at hc) h1
    · intro c hc h1
      rw [hno]
      by_cases hce : cell = c
      · rw [hboard, ← hce, getD_set_self hlt, hturn] at h1; exact absurd h1 (by norm_num)
      · rw [hboard, getD_set_ne hce] at h1
        exact hm.nought_mem c (by rwa [hlen] at hc) h1
  · have hturn' : ¬ m.turn = 1 := by rw [hturn]; norm_num
    obtain ⟨hcr, hno⟩ := make_move_crosses_neg m cell hturn'
    refine ⟨by rw [hlen, make_move_size]; exact hm.len_eq, ?_, ?_, ?_, ?_, ?_⟩
    · rw [make_move_turn, hturn]; left; rfl
    · intro c hc
      rw [hcr] at hc
      obtain ⟨h1, h2⟩ := hm.crosses_mark c hc
      have hne : cell ≠ c := fun he => by rw [he] at hempty; rw [hempty] at h2; exact absurd h2 (by norm_num)
      rw [hlen, hboard, getD_set_ne hne]
      exact ⟨h1, h2⟩
    · intro c hc
      rw [hno, List.mem_append, List.mem_singleton] at hc
      rcases hc with hc | rfl
      · obtain ⟨h1, h2⟩ := hm.noughts_mark c hc
        have hne : cell ≠ c := fun he => by rw [he] at hempty; rw [hempty] at h2; exact absurd h2 (by norm_num)
        rw [hlen, hboard, getD_set_ne hne]
        exact ⟨h1, h2⟩
      · rw [hlen, hboard, getD_set_self hlt, hturn]
        exact ⟨hlt, rfl⟩
    · intro c hc h1
      rw [hcr]
      by_cases hce : cell = c
      · rw [hboard, ← hce, getD_set_self hlt, hturn] at h1; exact absurd h1 (by norm_num)
      · rw [hboard, getD_set_ne hce] at h1
        exact hm.cross_mem c (by rwa [hlen] at hc) h1
    · intro c hc h1
      rw [hno, List.mem_append, List.mem_singleton]
      by_cases hce : cell = c
      · right; exact hce.symm
      · left
        rw [hboard, getD_set_ne hce] at h1
        exact hm.nought_mem c (by rwa [hlen] at hc) h1

theorem reachable_inv {m : TicTacToeManager} (h : Reachable m) : Inv m := by
  induction h with
  | init size k => exact inv_init _ _ rfl
  | move m cell _ hcell ih => exact inv_make_move ih hcell

theorem countEmpty_le_length (m : TicTacToeManager) :
    countEmpty m ≤ m.board.board.length :=
  List.count_le_length ..

theorem count_set_nonzero : ∀ (l : List Int) (i : Nat), l.getD i 0 = 0 → i < l.length →
    ∀ v : Int, v ≠ 0 → (l.set i v).count 0 + 1 = l.count 0 := by
  intro l
  induction l with
  | nil => intro i _ h; simp at h
  | cons c rest ih =>
    intro i h0 hlt v hv
    cases i with
    | zero =>
      rw [List.getD_cons_zero] at h0
      simp [List.set, List.count_cons, h0, hv]
    | succ i =>
      rw [List.getD_cons_succ] at h0
      have hlt' : i < rest.length := by simpa using hlt
      simp only [List.set, List.count_cons]
      have := ih i h0 hlt' v hv
      omega

theorem countEmpty_make_move {m : TicTacToeManager} {cell : Nat}
    (hcell : cell ∈ m.find_legal_moves) (hturn : m.turn ≠ 0) :
    countEmpty (m.make_move cell) + 1 = countEmpty m := by
  obtain ⟨hlt, h0⟩ := mem_find_legal_moves.1 hcell
  unfold countEmpty
  rw [make_move_board]
  exact count_set_nonzero m.board.board cell h0 hlt m.turn hturn

theorem find_legal_nonempty_of_countEmpty {m : TicTacToeManager}
    (h : ¬ m.find_legal_moves.isEmpty) : 0 < countEmpty m := by
  rw [List.isEmpty_iff] at h
  unfold countEmpty
  rw [← length_findLegalAux m.board.board 0]
  rcases hne : (findLegalAux m.board.board 0) with _ | ⟨a, rest⟩
  · exact absurd hne h
  · simp

/-- C5: `find_legal_moves` returns exactly the indices of the cells holding `0`,
in strictly ascending order, and its length is `n*n` minus the number of occupied
(nonzero) cells.  The embedding of the call is a pure function of the state, so
it leaves the `GameState` unchanged by construction. -/
theorem find_legal_moves_spec (m : TicTacToeManager)
    (hlen : m.board.board.length = m.board.size * m.board.size) :
    (∀ i : Nat, i ∈ m.find_legal_moves ↔
        i < m.board.size * m.board.size ∧ m.board.board.getD i 0 = 0) ∧
    List.Sorted (· < ·) m.find_legal_moves ∧
    m.find_legal_moves.length =
      m.board.size * m.board.size - (m.board.board.filter (fun v => v ≠ 0)).length := by
  refine ⟨?_, sorted_find_legal_moves m, ?_⟩
  · intro i
    rw [mem_find_legal_moves, hlen]
  · rw [TicTacToeManager.find_legal_moves, length_findLegalAux, ← hlen]
    have := count_zero_add_filter m.board.board
    omega

theorem find_legal_moves_spec_witness :
    (sample0.make_move 4).board.board.length =
      (sample0.make_move 4).board.size * (sample0.make_move 4).board.size ∧
    ((∀ i : Nat, i ∈ (sample0.make_move 4).find_legal_moves ↔
        i < (sample0.make_move 4).board.size * (sample0.make_move 4).board.size ∧
          (sample0.make_move 4).board.board.getD i 0 = 0) ∧
      List.Sorted (· < ·) (sample0.make_move 4).find_legal_moves ∧
      (sample0.make_move 4).find_legal_moves.length =
        (sample0.make_move 4).board.size * (sample0.make_move 4).board.size -
          ((sample0.make_move 4).board.board.filter (fun v => v ≠ 0)).length) :=
  ⟨by decide, find_legal_moves_spec (sample0.make_move 4) (by decide)⟩

/-- C1: on a reachable state, making a move on an empty cell and then unmaking it
restores the full manager state (board, turn, both history lists). -/
theorem make_unmake_roundtrip (m : TicTacToeManager) (cell : Nat) (hre : Reachable m)
    (hlt : cell < m.board.board.length) (hempty : m.board.board.getD cell 0 = 0) :
    (m.make_move cell).unmake_move cell = m := by
  have hinv := reachable_inv hre
  have hcn : cell ∉ m.crosses := by
    intro hc
    have h1 := (hinv.crosses_mark cell hc).2
    rw [hempty] at h1
    exact absurd h1 (by norm_num)
  have hnn : cell ∉ m.noughts := by
    intro hc
    have h1 := (hinv.noughts_mark cell hc).2
    rw [hempty] at h1
    exact absurd h1 (by norm_num)
  obtain ⟨board, crosses, noughts, turn, k⟩ := m
  obtain ⟨size, bl⟩ := board
  simp only [TicTacToeManager.unmake_move, TicTacToeManager.make_move] at *
  rcases hinv.turn_ok with ht | ht
  · simp only at ht
    subst ht
    norm_num
    constructor
    · exact set_getD_zero bl cell hempty
    · rw [List.erase_append_right _ hcn, List.erase_cons_head, List.append_nil]
  · simp only at ht
    subst ht
    norm_num
    constructor
    · exact set_getD_zero bl cell hempty
    · rw [List.erase_append_right _ hnn, List.erase_cons_head, List.append_nil]

theorem make_unmake_roundtrip_witness :
    4 < (sample0.make_move 0).board.board.length ∧
    (sample0.make_move 0).board.board.getD 4 0 = 0 ∧
    ((sample0.make_move 0).make_move 4).unmake_move 4 = sample0.make_move 0 :=
  ⟨by decide, by decide,
    make_unmake_roundtrip (sample0.make_move 0) 4
      (Reachable.move _ 0 (Reachable.init 3 (some 3)) (by decide)) (by decide) (by decide)⟩

/-- C2 (code bug): `reset_board` only calls `board.create_board()`; the two
history lists and `turn` keep their values.  After one move and a reset the
board is indeed all zeros, but `crosses` is still `[0]` and `turn` is still
`-1`, contradicting the claimed full reset. -/
theorem reset_board_keeps_history_and_turn :
    (sample0.make_move 0).reset_board.board.board = List.replicate 9 0 ∧
    (sample0.make_move 0).reset_board.crosses = [0] ∧
    (sample0.make_move 0).reset_board.noughts = [] ∧
    (sample0.make_move 0).reset_board.turn = -1 := by decide

/-- C9 (code bug): the constructor validates nothing: `winLength = 5` on a
`size = 3` board is accepted and stored, `winLength = 0` is silently replaced
by the board size (Python truthiness), and `size = 0` constructs as well; no
configuration error path exists in the code. -/
theorem init_accepts_invalid_config :
    (TicTacToeManager.init (Board.create 3) (some 5)).pieces_to_win = 5 ∧
    (TicTacToeManager.init (Board.create 3) (some 0)).pieces_to_win = 3 ∧
    (TicTacToeManager.init (Board.create 0) none).pieces_to_win = 0 ∧
    (TicTacToeManager.init (Board.create 3) (some (-2))).pieces_to_win = -2 := by decide

theorem rayIdx_zero (size c : Nat) (d : Int × Int) : rayIdx size c d 0 = c := by
  unfold rayIdx rayY rayX cellX cellY
  push_cast
  simp only [Nat.cast_zero, mul_zero, add_zero]
  exact Int.ediv_add_emod' _ _

theorem rayIdx_bounds {size c : Nat} {d : Int × Int} {i : Nat} (h : rayInGrid size c d i) :
    0 ≤ rayIdx size c d i ∧ rayIdx size c d i < (size : Int) * size := by
  obtain ⟨hx0, hxs, hy0, hys⟩ := h
  unfold rayIdx
  constructor
  · positivity
  · nlinarith

theorem rayIdx_emod {size c : Nat} {d : Int × Int} {i : Nat} (h : rayInGrid size c d i) :
    rayIdx size c d i % size = rayX size c d i := by
  obtain ⟨hx0, hxs, _, _⟩ := h
  unfold rayIdx
  rw [show rayY size c d i * size + rayX size c d i
      = rayX size c d i + rayY size c d i * size by ring, Int.add_mul_emod_self]
  exact Int.emod_eq_of_lt hx0 hxs

theorem rayIdx_ediv {size c : Nat} {d : Int × Int} {i : Nat} (hs : 0 < size)
    (h : rayInGrid size c d i) : rayIdx size c d i / size = rayY size c d i := by
  obtain ⟨hx0, hxs, _, _⟩ := h
  unfold rayIdx
  have hs' : (size : Int) ≠ 0 := by exact_mod_cast Nat.pos_iff_ne_zero.1 hs
  rw [show rayY size c d i * size + rayX size c d i
      = rayX size c d i + size * rayY size c d i by ring,
    Int.add_mul_ediv_left _ _ hs', Int.ediv_eq_zero_of_lt hx0 hxs]
  ring

theorem rayX_succ (size c : Nat) (d : Int × Int) (i : Nat) :
    rayX size c d (i + 1) = rayX size c d i + d.1 := by
  unfold rayX
  push_cast
  ring

theorem rayY_succ (size c : Nat) (d : Int × Int) (i : Nat) :
    rayY size c d (i + 1) = rayY size c d i + d.2 := by
  unfold rayY
  push_cast
  ring

/-- `check_borders` at the `i`-th ray cell decides exactly whether the
`(i+1)`-st ray cell is on the grid. -/
theorem check_borders_iff {m : TicTacToeManager} {c : Nat} {d : Int × Int} {i : Nat}
    (hs : 0 < m.board.size) (h : rayInGrid m.board.size c d i) :
    m.check_borders (rayIdx m.board.size c d i) d = true ↔
      rayInGrid m.board.size c d (i + 1) := by
  have hm := rayIdx_emod h
  have hd := rayIdx_ediv hs h
  unfold TicTacToeManager.check_borders
  simp only [Bool.and_eq_true, decide_eq_true_iff]
  rw [hm, hd]
  unfold rayInGrid
  rw [rayX_succ, rayY_succ]
  tauto

/-- The `next_cell` computed by the walk at step `i` is the row-major index
of the `i`-th ray cell. -/
theorem walk_index_formula (size c : Nat) (d : Int × Int) (i : Nat) :
    (c : Int) + (d.1 + d.2 * (size : Int)) * (i : Nat) = rayIdx size c d i := by
  have h0 : rayIdx size c d 0 = c := rayIdx_zero size c d
  unfold rayIdx rayY rayX at *
  push_cast at *
  nlinarith [h0]

/-- In-range `pyGet` is a plain `getD` read. -/
theorem pyGet_nonneg {l : List Int} {i : Int} (h : 0 ≤ i) :
    pyGet l i = l.getD i.toNat 0 := by
  unfold pyGet
  rw [if_pos h]

/-- Full characterisation of the instrumented walk started at the `j`-th ray
cell: the win flag holds iff every remaining step stays on the grid and reads
the probed content; every read is the index of the next ray cell and lies on
the grid; a completed walk performed all its reads. -/
theorem winWalk_spec (m : TicTacToeManager) (c : Nat) (cc : Int) (d : Int × Int)
    (hs : 0 < m.board.size) :
    ∀ (steps j : Nat), rayInGrid m.board.size c d j →
      ((winWalk m c cc d (rayIdx m.board.size c d j) (j + 1) steps).1 = true ↔
        ∀ i : Nat, j + 1 ≤ i → i ≤ j + steps →
          rayInGrid m.board.size c d i ∧
            m.board.board.getD (rayIdx m.board.size c d i).toNat 0 = cc) ∧
      (∀ t : Nat, t < (winWalk m c cc d (rayIdx m.board.size c d j) (j + 1) steps).2.length →
        (winWalk m c cc d (rayIdx m.board.size c d j) (j + 1) steps).2[t]?
            = some (rayIdx m.board.size c d (j + 1 + t)) ∧
          rayInGrid m.board.size c d (j + 1 + t)) ∧
      ((winWalk m c cc d (rayIdx m.board.size c d j) (j + 1) steps).1 = true →
        (winWalk m c cc d (rayIdx m.board.size c d j) (j + 1) steps).2.length = steps) := by
  intro steps
  induction steps with
  | zero =>
    intro j hj
    refine ⟨?_, ?_, ?_⟩
    · constructor
      · intro _ i h1 h2
        omega
      · intro _
        rfl
    · intro t ht
      have hlz : (winWalk m c cc d (rayIdx m.board.size c d j) (j + 1) 0).2.length = 0 := rfl
      omega
    · intro _
      rfl
  | succ steps ih =>
    intro j hj
    by_cases hb : m.check_borders (rayIdx m.board.size c d j) d = true
    · have hj1 : rayInGrid m.board.size c d (j + 1) := (check_borders_iff hs hj).1 hb
      have hnc : (c : Int) + (d.1 + d.2 * (m.board.size : Int)) * ((j + 1 : Nat) : Int)
          = rayIdx m.board.size c d (j + 1) := walk_index_formula m.board.size c d (j + 1)
      have hread : pyGet m.board.board (rayIdx m.board.size c d (j + 1))
          = m.board.board.getD (rayIdx m.board.size c d (j + 1)).toNat 0 :=
        pyGet_nonneg (rayIdx_bounds hj1).1
      by_cases hcc : m.board.board.getD (rayIdx m.board.size c d (j + 1)).toNat 0 = cc
      · have hunfold : winWalk m c cc d (rayIdx m.board.size c d j) (j + 1) (steps + 1)
            = ((winWalk m c cc d (rayIdx m.board.size c d (j + 1)) (j + 1 + 1) steps).1,
               rayIdx m.board.size c d (j + 1)
                 :: (winWalk m c cc d (rayIdx m.board.size c d (j + 1)) (j + 1 + 1) steps).2) := by
          rw [winWalk, if_pos hb]
          simp only [hnc, hread, hcc, eq_self_iff_true, if_true]
        obtain ⟨ih1, ih2, ih3⟩ := ih (j + 1) hj1
        refine ⟨?_, ?_, ?_⟩
        · rw [hunfold]
          simp only
          rw [ih1]
          constructor
          · intro h i h1 h2
            rcases Nat.eq_or_lt_of_le h1 with rfl | hlt
            · exact ⟨hj1, hcc⟩
            · exact h i (by omega) (by omega)
          · intro h i h1 h2
            exact h i (by omega) (by omega)
        · intro t ht
          rw [hunfold] at ht ⊢
          cases t with
          | zero =>
            refine ⟨by simp, ?_⟩
            rw [show j + 1 + 0 = j + 1 by omega]
            exact hj1
          | succ t =>
            have ht' : t < (winWalk m c cc d
                (rayIdx m.board.size c d (j + 1)) (j + 1 + 1) steps).2.length := by
              simp only [List.length_cons] at ht
              omega
            obtain ⟨h1, h2⟩ := ih2 t ht'
            refine ⟨?_, ?_⟩
            · simp only [List.getElem?_cons_succ]
              rw [h1]
              congr 2
              omega
            · rw [show j + 1 + (t + 1) = j + 1 + 1 + t by omega]
              exact h2
        · intro hw
          rw [hunfold] at hw ⊢
          simp only at hw
          simp only [List.length_cons]
          rw [ih3 hw]
      · have hunfold : winWalk m c cc d (rayIdx m.board.size c d j) (j + 1) (steps + 1)
            = (false, [rayIdx m.board.size c d (j + 1)]) := by
          rw [winWalk, if_pos hb]
          simp only [hnc, hread]
          rw [if_neg hcc]
        refine ⟨?_, ?_, ?_⟩
        · rw [hunfold]
          simp only
          constructor
          · intro h
            exact absurd h (by simp)
          · intro h
            obtain ⟨_, hcontents⟩ := h (j + 1) (le_refl _) (by omega)
            exact absurd hcontents hcc
        · intro t ht
          rw [hunfold] at ht ⊢
          have ht0 : t = 0 := by
            simp only [List.length_cons, List.length_nil] at ht
            omega
          subst ht0
          refine ⟨by simp, ?_⟩
          rw [show j + 1 + 0 = j + 1 by omega]
          exact hj1
        · intro hw
          rw [hunfold] at hw
          exact absurd hw (by simp)
    · have hunfold : winWalk m c cc d (rayIdx m.board.size c d j) (j + 1) (steps + 1)
          = (false, []) := by
        rw [winWalk, if_neg hb]
      have hj1 : ¬ rayInGrid m.board.size c d (j + 1) :=
        fun h => hb ((check_borders_iff hs hj).2 h)
      refine ⟨?_, ?_, ?_⟩
      · rw [hunfold]
        simp only
        constructor
        · intro h
          exact absurd h (by simp)
        · intro h
          obtain ⟨hgrid, _⟩ := h (j + 1) (le_refl _) (by omega)
          exact absurd hgrid hj1
      · intro t ht
        rw [hunfold] at ht
        exact absurd ht (by simp)
      · intro hw
        rw [hunfold] at hw
        exact absurd hw (by simp)

theorem rayInGrid_zero {size c : Nat} (hs : 0 < size) (hc : c < size * size) (d : Int × Int) :
    rayInGrid size c d 0 := by
  unfold rayInGrid rayX rayY cellX cellY
  push_cast
  simp only [mul_zero, add_zero]
  refine ⟨Int.natCast_nonneg _, ?_, Int.natCast_nonneg _, ?_⟩
  · exact_mod_cast Nat.mod_lt c hs
  · exact_mod_cast (Nat.div_lt_iff_lt_mul hs).2 hc

theorem check_win_at_cell_values (m : TicTacToeManager) (c : Nat) :
    m.check_win_at_cell c = 0 ∨ m.check_win_at_cell c = 1 := by
  simp only [TicTacToeManager.check_win_at_cell]
  split
  · right; rfl
  · left; rfl

theorem check_win_list_values (m : TicTacToeManager) :
    ∀ l : List Nat, m.check_win_list l = 0 ∨ m.check_win_list l = 1 := by
  intro l
  induction l with
  | nil => left; rfl
  | cons c rest ih =>
    rw [TicTacToeManager.check_win_list]
    rcases check_win_at_cell_values m c with h | h
    · rw [h, if_neg (by norm_num : ¬ ((0 : Int) ≠ 0))]
      exact ih
    · rw [h, if_pos (by norm_num : ((1 : Int) ≠ 0))]
      right
      rfl

theorem check_win_list_eq_one_iff (m : TicTacToeManager) :
    ∀ l : List Nat, m.check_win_list l = 1 ↔ ∃ c ∈ l, m.check_win_at_cell c = 1 := by
  intro l
  induction l with
  | nil => simp [TicTacToeManager.check_win_list]
  | cons c rest ih =>
    rw [TicTacToeManager.check_win_list]
    rcases check_win_at_cell_values m c with h | h
    · rw [h, if_neg (by norm_num : ¬ ((0 : Int) ≠ 0))]
      rw [ih]
      constructor
      · rintro ⟨x, hx, hx1⟩
        exact ⟨x, List.mem_cons_of_mem c hx, hx1⟩
      · rintro ⟨x, hx, hx1⟩
        rcases List.mem_cons.1 hx with rfl | hx'
        · rw [hx1] at h
          exact absurd h (by norm_num)
        · exact ⟨x, hx', hx1⟩
    · rw [h, if_pos (by norm_num : ((1 : Int) ≠ 0))]
      constructor
      · intro _
        exact ⟨c, List.mem_cons_self c rest, h⟩
      · intro _
        rfl

theorem check_win_values (m : TicTacToeManager) : m.check_win = 0 ∨ m.check_win = 1 :=
  check_win_list_values m _

/-- `check_win_at_cell` succeeds iff some direction's full ray from the cell
stays on the grid and repeats the cell's content. -/
theorem check_win_at_cell_eq_one_iff (m : TicTacToeManager) (c : Nat)
    (hs : 0 < m.board.size) (hc : c < m.board.size * m.board.size) :
    m.check_win_at_cell c = 1 ↔ ∃ d ∈ directions,
      ∀ i : Nat, i ≤ (m.pieces_to_win - 1).toNat →
        rayInGrid m.board.size c d i ∧
          m.board.board.getD (rayIdx m.board.size c d i).toNat 0
            = pyGet m.board.board (c : Int) := by
  have hval : m.check_win_at_cell c = 1 ↔ directions.any
      (fun d => (winWalk m (c : Int) (pyGet m.board.board (c : Int)) d (c : Int) 1
        (m.pieces_to_win - 1).toNat).1) = true := by
    simp only [TicTacToeManager.check_win_at_cell]
    by_cases h : directions.any
        (fun d => (winWalk m (c : Int) (pyGet m.board.board (c : Int)) d (c : Int) 1
          (m.pieces_to_win - 1).toNat).1) = true
    · rw [if_pos h]
      exact iff_of_true rfl h
    · rw [if_neg h]
      exact iff_of_false (by norm_num) h
  have hdir : ∀ d : Int × Int,
      (winWalk m (c : Int) (pyGet m.board.board (c : Int)) d (c : Int) 1
        (m.pieces_to_win - 1).toNat).1 = true ↔
      ∀ i : Nat, i ≤ (m.pieces_to_win - 1).toNat →
        rayInGrid m.board.size c d i ∧
          m.board.board.getD (rayIdx m.board.size c d i).toNat 0
            = pyGet m.board.board (c : Int) := by
    intro d
    have hgrid0 := rayInGrid_zero hs hc d
    have h0 := (winWalk_spec m c (pyGet m.board.board (c : Int)) d hs
      ((m.pieces_to_win - 1).toNat) 0 hgrid0).1
    rw [rayIdx_zero, Nat.zero_add, Nat.zero_add] at h0
    have hc0 : m.board.board.getD (rayIdx m.board.size c d 0).toNat 0
        = pyGet m.board.board (c : Int) := by
      rw [rayIdx_zero, pyGet_nonneg (by positivity)]
    constructor
    · intro hw i hi
      cases Nat.eq_zero_or_pos i with
      | inl hz =>
        subst hz
        exact ⟨hgrid0, hc0⟩
      | inr hpos => exact h0.1 hw i (by omega) (by omega)
    · intro hall
      exact h0.2 (fun i h1 h2 => hall i (by omega))
  rw [hval, List.any_eq_true]
  constructor
  · rintro ⟨d, hd, hfd⟩
    exact ⟨d, hd, (hdir d).1 hfd⟩
  · rintro ⟨d, hd, hall⟩
    exact ⟨d, hd, (hdir d).2 hall⟩

/-- Round trip between in-grid coordinates and the row-major cell index. -/
theorem coords_roundtrip {size : Nat} {x0 y0 : Int} (hs : 0 < size)
    (hx0 : 0 ≤ x0) (hxs : x0 < size) (hy0 : 0 ≤ y0) (hys : y0 < size) :
    (y0 * size + x0).toNat < size * size ∧
      cellX size (y0 * size + x0).toNat = x0 ∧
      cellY size (y0 * size + x0).toNat = y0 := by
  have hnn : 0 ≤ y0 * size + x0 := by positivity
  have hlt : y0 * size + x0 < (size : Int) * size := by nlinarith
  have hcast : (((y0 * size + x0).toNat : Nat) : Int) = y0 * size + x0 := Int.toNat_of_nonneg hnn
  have hs' : (size : Int) ≠ 0 := by exact_mod_cast Nat.pos_iff_ne_zero.1 hs
  refine ⟨?_, ?_, ?_⟩
  · have h1 : (((y0 * size + x0).toNat : Nat) : Int) < (size : Int) * size := by
      rw [hcast]
      exact hlt
    exact_mod_cast h1
  · unfold cellX
    have h1 : (((y0 * size + x0).toNat % size : Nat) : Int)
        = (((y0 * size + x0).toNat : Nat) : Int) % (size : Int) := by
      push_cast
      ring
    rw [h1, hcast, show y0 * size + x0 = x0 + y0 * size by ring, Int.add_mul_emod_self]
    exact Int.emod_eq_of_lt hx0 hxs
  · unfold cellY
    have h1 : (((y0 * size + x0).toNat / size : Nat) : Int)
        = (((y0 * size + x0).toNat : Nat) : Int) / (size : Int) := by
      push_cast
      ring
    rw [h1, hcast, show y0 * size + x0 = x0 + size * y0 by ring,
      Int.add_mul_ediv_left _ _ hs', Int.ediv_eq_zero_of_lt hx0 hxs]
    ring

/-- C4: safety of the direction walk of the win check, as invoked by
`check_win_at_cell`, for any board size, any `winLength` in `[1, size]`, any
in-bounds starting cell and any of the 8 directions.  Every board index the
walk reads is the row-major index of the next ray cell and that cell lies on
the grid — so no read is outside `[0, size*size)` and no row wraparound
happens at any intermediate step — and a walk that reports a win completed
all `winLength - 1` reads with the whole ray on the grid: a walk that
reaches the grid boundary earlier never reports a win for its direction. -/
theorem winWalk_safety (m : TicTacToeManager) (cell : Nat) (d : Int × Int)
    (w : Bool × List Int)
    (hw : w = winWalk m (cell : Int) (pyGet m.board.board (cell : Int)) d (cell : Int) 1
      (m.pieces_to_win - 1).toNat)
    (hK1 : 1 ≤ m.pieces_to_win) (hKs : m.pieces_to_win ≤ (m.board.size : Int))
    (hcell : cell < m.board.size * m.board.size) (hd : d ∈ directions) :
    (∀ t : Nat, t < w.2.length →
        w.2[t]? = some (rayIdx m.board.size cell d (t + 1)) ∧
          rayInGrid m.board.size cell d (t + 1)) ∧
    (∀ r ∈ w.2, 0 ≤ r ∧ r < (m.board.size : Int) * m.board.size) ∧
    (w.1 = true →
        w.2.length = (m.pieces_to_win - 1).toNat ∧
          ∀ i : Nat, i ≤ (m.pieces_to_win - 1).toNat → rayInGrid m.board.size cell d i) := by
  have hs : 0 < m.board.size := by
    have h1 : (1 : Int) ≤ (m.board.size : Int) := le_trans hK1 hKs
    exact_mod_cast h1
  have hgrid0 := rayInGrid_zero hs hcell d
  have hspec := winWalk_spec m cell (pyGet m.board.board (cell : Int)) d hs
    ((m.pieces_to_win - 1).toNat) 0 hgrid0
  rw [rayIdx_zero] at hspec
  obtain ⟨hspec1, hspec2, hspec3⟩ := hspec
  have hreads : ∀ t : Nat, t < w.2.length →
      w.2[t]? = some (rayIdx m.board.size cell d (t + 1)) ∧
        rayInGrid m.board.size cell d (t + 1) := by
    intro t ht
    rw [hw] at ht ⊢
    obtain ⟨h1, h2⟩ := hspec2 t ht
    rw [show 0 + 1 + t = t + 1 by omega] at h1 h2
    exact ⟨h1, h2⟩
  refine ⟨hreads, ?_, ?_⟩
  · intro r hr
    obtain ⟨t, ht, hget⟩ := List.mem_iff_getElem.1 hr
    have hsome : w.2[t]? = some r := by
      rw [List.getElem?_eq_getElem ht, hget]
    obtain ⟨h1, h2⟩ := hreads t ht
    rw [hsome] at h1
    have hr' : r = rayIdx m.board.size cell d (t + 1) := by
      injection h1
    rw [hr']
    exact rayIdx_bounds h2
  · intro hwin
    rw [hw] at hwin
    constructor
    · rw [hw]
      exact hspec3 hwin
    · intro i hi
      cases Nat.eq_zero_or_pos i with
      | inl hz =>
        subst hz
        exact hgrid0
      | inr hpos =>
        exact (hspec1.1 hwin i (by omega) (by omega)).1

theorem winWalk_safety_witness :
    (∀ t : Nat, t < scnWalk.2.length →
        scnWalk.2[t]? = some (rayIdx scn.board.size 0 (1, 1) (t + 1)) ∧
          rayInGrid scn.board.size 0 (1, 1) (t + 1)) ∧
    (∀ r ∈ scnWalk.2, 0 ≤ r ∧ r < (scn.board.size : Int) * scn.board.size) ∧
    (scnWalk.1 = true →
        scnWalk.2.length = (scn.pieces_to_win - 1).toNat ∧
          ∀ i : Nat, i ≤ (scn.pieces_to_win - 1).toNat → rayInGrid scn.board.size 0 (1, 1) i) :=
  winWalk_safety scn 0 (1, 1) scnWalk rfl (by decide) (by decide) (by decide) (by decide)

/-- A line starting at the coordinates of cell `c` is exactly a full in-grid
ray from `c` with constant content. -/
theorem lineWin_start_iff (b : Board) (mark : Int) (K : Nat) (c : Nat) (d : Int × Int) :
    LineWin b mark K (cellX b.size c) (cellY b.size c) d ↔
      ∀ i : Nat, i < K → rayInGrid b.size c d i ∧
        b.board.getD (rayIdx b.size c d i).toNat 0 = mark := by
  unfold LineWin rayInGrid rayIdx rayX rayY
  exact Iff.rfl

/-- C3: on every `GameState` consistent with its history lists (with `turn`
one of `±1` and `winLength ≥ 1`, the data-model invariants of spec §3),
`check_win` returns nonzero exactly when the player who just moved — mark
`-turn` — has `winLength` consecutive cells of their mark in one of the 8
directions through one of their placed cells, and `0` otherwise; moreover
`check_win` only returns `0` or `1`, and in the concrete 3x3 scenario
(`+1` at 0, 4, 8 alternated with `-1` at 1, 2) it returns `1`. -/
theorem check_win_iff_specwin (m : TicTacToeManager)
    (hcons : HistoryConsistent m) (hturn : m.turn = 1 ∨ m.turn = -1)
    (hK : 1 ≤ m.pieces_to_win) :
    ((m.check_win ≠ 0 ↔ SpecWin m) ∧ (m.check_win = 0 ∨ m.check_win = 1)) ∧
    scn.check_win = 1 := by
  obtain ⟨hlen, hcr, hno, hcm, hnm⟩ := hcons
  refine ⟨⟨?_, check_win_values m⟩, by decide⟩
  have hne1 : m.check_win ≠ 0 ↔ m.check_win = 1 := by
    rcases check_win_values m with h | h <;> simp [h]
  rw [hne1, TicTacToeManager.check_win, check_win_list_eq_one_iff]
  have hhist : histOf m (-m.turn) = (if m.turn = -1 then m.crosses else m.noughts) := by
    rcases hturn with ht | ht <;> rw [ht] <;> unfold histOf <;> norm_num
  have hmark : ∀ c ∈ (if m.turn = -1 then m.crosses else m.noughts),
      c < m.board.board.length ∧ m.board.board.getD c 0 = -m.turn := by
    intro c hc
    rcases hturn with ht | ht
    · rw [if_neg (by rw [ht]; norm_num)] at hc
      obtain ⟨h1, h2⟩ := hno c hc
      rw [ht]
      exact ⟨h1, by rw [h2]⟩
    · rw [if_pos ht] at hc
      obtain ⟨h1, h2⟩ := hcr c hc
      rw [ht]
      exact ⟨h1, by rw [h2]; norm_num⟩
  have hmem : ∀ c : Nat, c < m.board.board.length → m.board.board.getD c 0 = -m.turn →
      c ∈ (if m.turn = -1 then m.crosses else m.noughts) := by
    intro c hclt hcv
    rcases hturn with ht | ht
    · rw [if_neg (by rw [ht]; norm_num)]
      exact hnm c hclt (by rw [hcv, ht])
    · rw [if_pos ht]
      exact hcm c hclt (by rw [hcv, ht]; norm_num)
  constructor
  · rintro ⟨c, hcL, hc1⟩
    obtain ⟨hclt, hcv⟩ := hmark c hcL
    have hclt2 : c < m.board.size * m.board.size := by rw [← hlen]; exact hclt
    have hs : 0 < m.board.size := by
      rcases Nat.eq_zero_or_pos m.board.size with h | h
      · rw [h] at hclt2; omega
      · exact h
    rw [check_win_at_cell_eq_one_iff m c hs hclt2] at hc1
    obtain ⟨d, hd, hall⟩ := hc1
    refine ⟨c, by rw [hhist]; exact hcL, d, hd, 0, by omega, ?_⟩
    have hx0 : cellX m.board.size c - d.1 * ((0 : Nat) : Int) = cellX m.board.size c := by
      push_cast; ring
    have hy0 : cellY m.board.size c - d.2 * ((0 : Nat) : Int) = cellY m.board.size c := by
      push_cast; ring
    rw [hx0, hy0, lineWin_start_iff]
    intro i hi
    have hi' : i ≤ (m.pieces_to_win - 1).toNat := by omega
    obtain ⟨hgrid, hcontent⟩ := hall i hi'
    refine ⟨hgrid, ?_⟩
    rw [hcontent, pyGet_nonneg (by positivity)]
    simpa using hcv
  · rintro ⟨c, hcH, d, hd, t, ht, hline⟩
    have hcL : c ∈ (if m.turn = -1 then m.crosses else m.noughts) := by
      rw [← hhist]; exact hcH
    obtain ⟨hclt, hcv⟩ := hmark c hcL
    have hclt2 : c < m.board.size * m.board.size := by rw [← hlen]; exact hclt
    have hs : 0 < m.board.size := by
      rcases Nat.eq_zero_or_pos m.board.size with h | h
      · rw [h] at hclt2; omega
      · exact h
    obtain ⟨hcoords0, hcont0⟩ := hline 0 (by omega)
    have hz : ((0 : Nat) : Int) = 0 := rfl
    rw [hz] at hcoords0 hcont0
    simp only [mul_zero, add_zero] at hcoords0 hcont0
    obtain ⟨hx0n, hx0s, hy0n, hy0s⟩ := hcoords0
    obtain ⟨hc0lt, hcx, hcy⟩ := coords_roundtrip hs hx0n hx0s hy0n hy0s
    set x0 := cellX m.board.size c - d.1 * t with hx0def
    set y0 := cellY m.board.size c - d.2 * t with hy0def
    set c0 : Nat := (y0 * (m.board.size : Int) + x0).toNat with hc0def
    have hc0v : m.board.board.getD c0 0 = -m.turn := hcont0
    have hc0L : c0 ∈ (if m.turn = -1 then m.crosses else m.noughts) :=
      hmem c0 (by rw [hlen]; exact hc0lt) hc0v
    refine ⟨c0, hc0L, ?_⟩
    rw [check_win_at_cell_eq_one_iff m c0 hs hc0lt]
    refine ⟨d, hd, ?_⟩
    rw [← hcx, ← hcy] at hline
    rw [lineWin_start_iff] at hline
    intro i hi
    obtain ⟨hgrid, hcontent⟩ := hline i (by omega)
    refine ⟨hgrid, ?_⟩
    rw [hcontent, pyGet_nonneg (by positivity)]
    simpa using hc0v.symm

theorem check_win_iff_specwin_witness :
    HistoryConsistent scn ∧ (scn.turn = 1 ∨ scn.turn = -1) ∧ 1 ≤ scn.pieces_to_win ∧
    (((scn.check_win ≠ 0 ↔ SpecWin scn) ∧ (scn.check_win = 0 ∨ scn.check_win = 1)) ∧
      scn.check_win = 1) :=
  ⟨by decide, by decide, by decide, check_win_iff_specwin scn (by decide) (by decide) (by decide)⟩

/-! ### Order and negation facts for the search value domain -/
theorem XVal.le_refl (a : XVal) : XVal.le a a = true := by
  cases a <;> simp [XVal.le]

theorem XVal.lt_irrefl (a : XVal) : XVal.lt a a = false := by
  cases a <;> simp [XVal.lt]

theorem XVal.not_le {a b : XVal} : XVal.le a b = false ↔ XVal.lt b a = true := by
  cases a <;> cases b <;> simp [XVal.le, XVal.lt] <;> omega

theorem XVal.not_lt {a b : XVal} : XVal.lt a b = false ↔ XVal.le b a = true := by
  cases a <;> cases b <;> simp [XVal.le, XVal.lt] <;> omega

theorem XVal.le_of_lt {a b : XVal} (h : XVal.lt a b = true) : XVal.le a b = true := by
  cases a <;> cases b <;> simp [XVal.le, XVal.lt] at * <;> omega

theorem XVal.le_antisymm {a b : XVal} (h1 : XVal.le a b = true) (h2 : XVal.le b a = true) :
    a = b := by
  cases a <;> cases b <;> simp [XVal.le] at * <;> omega

theorem XVal.le_trans {a b c : XVal} (h1 : XVal.le a b = true) (h2 : XVal.le b c = true) :
    XVal.le a c = true := by
  cases a <;> cases b <;> cases c <;> simp [XVal.le] at * <;> omega

theorem XVal.lt_of_lt_of_le {a b c : XVal} (h1 : XVal.lt a b = true) (h2 : XVal.le b c = true) :
    XVal.lt a c = true := by
  cases a <;> cases b <;> cases c <;> simp [XVal.le, XVal.lt] at * <;> omega

theorem XVal.lt_of_le_of_lt {a b c : XVal} (h1 : XVal.le a b = true) (h2 : XVal.lt b c = true) :
    XVal.lt a c = true := by
  cases a <;> cases b <;> cases c <;> simp [XVal.le, XVal.lt] at * <;> omega

theorem XVal.neg_neg (a : XVal) : a.neg.neg = a := by
  cases a <;> simp [XVal.neg]

theorem XVal.neg_le_neg (a b : XVal) : XVal.le a.neg b.neg = XVal.le b a := by
  cases a <;> cases b <;> simp [XVal.le, XVal.neg] <;> omega

theorem XVal.neg_lt_neg (a b : XVal) : XVal.lt a.neg b.neg = XVal.lt b a := by
  cases a <;> cases b <;> simp [XVal.lt, XVal.neg] <;> omega

theorem XVal.le_neg {a b : XVal} : XVal.le a b.neg = XVal.le b a.neg := by
  cases a <;> cases b <;> simp [XVal.le, XVal.neg] <;> omega

theorem XVal.neg_le {a b : XVal} : XVal.le a.neg b = XVal.le b.neg a := by
  cases a <;> cases b <;> simp [XVal.le, XVal.neg] <;> omega

theorem XVal.lt_neg {a b : XVal} : XVal.lt a b.neg = XVal.lt b a.neg := by
  cases a <;> cases b <;> simp [XVal.lt, XVal.neg] <;> omega

theorem XVal.neg_lt {a b : XVal} : XVal.lt a.neg b = XVal.lt b.neg a := by
  cases a <;> cases b <;> simp [XVal.lt, XVal.neg] <;> omega

theorem XVal.max_eq_right {a b : XVal} (h : XVal.le a b = true) : XVal.max a b = b := by
  unfold XVal.max
  rw [h]
  rfl

theorem XVal.max_eq_left {a b : XVal} (h : XVal.le b a = true) : XVal.max a b = a := by
  unfold XVal.max
  by_cases h2 : XVal.le a b = true
  · rw [h2, if_pos rfl]
    exact (XVal.le_antisymm h2 h).symm
  · rw [Bool.not_eq_true] at h2
    rw [h2]
    rfl

theorem XVal.le_max_left (a b : XVal) : XVal.le a (XVal.max a b) = true := by
  unfold XVal.max
  by_cases h : XVal.le a b = true
  · rw [h]
    exact h
  · rw [Bool.not_eq_true] at h
    rw [h]
    exact XVal.le_refl a

theorem XVal.le_max_right (a b : XVal) : XVal.le b (XVal.max a b) = true := by
  unfold XVal.max
  by_cases h : XVal.le a b = true
  · rw [h]
    exact XVal.le_refl b
  · rw [Bool.not_eq_true] at h
    rw [h]
    exact XVal.le_of_lt (XVal.not_le.1 h)

theorem XVal.max_fin_fin (a b : Int) :
    XVal.max (XVal.fin a) (XVal.fin b) = XVal.fin (Max.max a b) := by
  unfold XVal.max
  by_cases h : a ≤ b
  · rw [show XVal.le (XVal.fin a) (XVal.fin b) = true by simp [XVal.le, h], if_pos rfl]
    congr 1
    omega
  · rw [show XVal.le (XVal.fin a) (XVal.fin b) = false by simp [XVal.le]; omega,
      if_neg (by simp)]
    congr 1
    omega

theorem XVal.max_max_fin (a : XVal) (s t : Int) :
    XVal.max (XVal.max a (XVal.fin s)) (XVal.fin t) = XVal.max a (XVal.fin (Max.max s t)) := by
  cases a with
  | ninf =>
    rw [XVal.max_eq_right (show XVal.le XVal.ninf (XVal.fin s) = true from rfl),
      XVal.max_fin_fin,
      XVal.max_eq_right (show XVal.le XVal.ninf (XVal.fin (Max.max s t)) = true from rfl)]
  | pinf =>
    rw [XVal.max_eq_left (show XVal.le (XVal.fin s) XVal.pinf = true from rfl),
      XVal.max_eq_left (show XVal.le (XVal.fin t) XVal.pinf = true from rfl),
      XVal.max_eq_left (show XVal.le (XVal.fin (Max.max s t)) XVal.pinf = true from rfl)]
  | fin x =>
    rw [XVal.max_fin_fin, XVal.max_fin_fin, XVal.max_fin_fin]
    congr 1
    omega

theorem failHard_of_exact {fuel : Nat} {m : TicTacToeManager} {depth : Int} {alpha beta : XVal}
    (h : searchFuel fuel m depth alpha beta = XVal.fin (negamaxFuel fuel m depth)) :
    FailHard fuel m depth alpha beta := by
  refine ⟨?_, ?_, fun _ _ => h⟩ <;> intro hh <;> rw [h] <;> exact hh

theorem loopVals_cons (fuel : Nat) (m : TicTacToeManager) (depth : Int)
    (c : Nat) (rest : List Nat) (alpha : XVal) :
    loopVals fuel m depth (c :: rest) alpha
      = loopVals fuel m depth rest
          (XVal.max alpha (XVal.fin (-(negamaxFuel fuel (m.make_move c) (depth - 1))))) := rfl

theorem loopVals_ge (fuel : Nat) (m : TicTacToeManager) (depth : Int) :
    ∀ (ms : List Nat) (alpha : XVal), XVal.le alpha (loopVals fuel m depth ms alpha) = true := by
  intro ms
  induction ms with
  | nil => intro alpha; exact XVal.le_refl alpha
  | cons c rest ih =>
    intro alpha
    exact XVal.le_trans (XVal.le_max_left _ _) (ih _)

theorem loopVals_max_fin (fuel : Nat) (m : TicTacToeManager) (depth : Int) :
    ∀ (ms : List Nat) (a : XVal) (s : Int),
      loopVals fuel m depth ms (XVal.max a (XVal.fin s))
        = XVal.max a (XVal.fin (List.foldl
            (fun x c => Max.max x (-(negamaxFuel fuel (m.make_move c) (depth - 1)))) s ms)) := by
  intro ms
  induction ms with
  | nil => intro a s; rfl
  | cons c rest ih =>
    intro a s
    rw [loopVals_cons, XVal.max_max_fin, ih]
    rfl

/-- The alpha-beta loop is the clamp of the running maximum `W` into
`[alpha, beta]`: `alpha` when `W` never exceeds `alpha`, `W` itself while
`W < beta`, and `beta` on a cutoff. -/
theorem searchGo_clamp (fuel : Nat)
    (IH : ∀ (m' : TicTacToeManager) (depth' : Int) (alpha' beta' : XVal),
        (m'.turn = 1 ∨ m'.turn = -1) → countEmpty m' ≤ fuel →
        XVal.lt alpha' beta' = true → FailHard fuel m' depth' alpha' beta') :
    ∀ (ms : List Nat) (m : TicTacToeManager) (depth : Int) (alpha beta : XVal),
      (m.turn = 1 ∨ m.turn = -1) → countEmpty m ≤ fuel + 1 →
      (∀ c ∈ ms, c ∈ m.find_legal_moves) → XVal.lt alpha beta = true →
      searchGo (searchFuel fuel) m depth beta ms alpha =
        (if XVal.lt alpha (loopVals fuel m depth ms alpha) = true then
          (if XVal.lt (loopVals fuel m depth ms alpha) beta = true then
            loopVals fuel m depth ms alpha
          else beta)
        else alpha) := by
  intro ms
  induction ms with
  | nil =>
    intro m depth alpha beta _ _ _ _
    have hW : loopVals fuel m depth [] alpha = alpha := rfl
    rw [hW, XVal.lt_irrefl, if_neg (by simp)]
    rfl
  | cons c rest ih =>
    intro m depth alpha beta hturn hfuel hms hab
    have hnveq : XVal.fin (-(negamaxFuel fuel (m.make_move c) (depth - 1)))
        = (XVal.fin (negamaxFuel fuel (m.make_move c) (depth - 1))).neg := rfl
    have hc_legal : c ∈ m.find_legal_moves := hms c (List.mem_cons_self c rest)
    have hms' : ∀ x ∈ rest, x ∈ m.find_legal_moves :=
      fun x hx => hms x (List.mem_cons_of_mem c hx)
    have hturn' : (m.make_move c).turn = 1 ∨ (m.make_move c).turn = -1 := by
      rw [make_move_turn]
      rcases hturn with h | h <;> rw [h] <;> norm_num
    have hturn0 : m.turn ≠ 0 := by
      rcases hturn with h | h <;> rw [h] <;> norm_num
    have hfuel' : countEmpty (m.make_move c) ≤ fuel := by
      have := countEmpty_make_move hc_legal hturn0
      omega
    have hab' : XVal.lt (XVal.neg beta) (XVal.neg alpha) = true := by
      rw [XVal.neg_lt_neg]
      exact hab
    obtain ⟨fh1, fh2, fh3⟩ :=
      IH (m.make_move c) (depth - 1) (XVal.neg beta) (XVal.neg alpha) hturn' hfuel' hab'
    have hgo : searchGo (searchFuel fuel) m depth beta (c :: rest) alpha =
        (if XVal.le beta (XVal.neg (searchFuel fuel (m.make_move c) (depth - 1)
              (XVal.neg beta) (XVal.neg alpha))) = true then beta
         else if XVal.lt alpha (XVal.neg (searchFuel fuel (m.make_move c) (depth - 1)
              (XVal.neg beta) (XVal.neg alpha))) = true then
           searchGo (searchFuel fuel) m depth beta rest
             (XVal.neg (searchFuel fuel (m.make_move c) (depth - 1)
               (XVal.neg beta) (XVal.neg alpha)))
         else searchGo (searchFuel fuel) m depth beta rest alpha) := rfl
    by_cases hbtc : XVal.le beta
        (XVal.fin (-(negamaxFuel fuel (m.make_move c) (depth - 1)))) = true
    · -- cutoff: the true child candidate already reaches beta
      have h2 : XVal.le (XVal.fin (negamaxFuel fuel (m.make_move c) (depth - 1)))
          (XVal.neg beta) = true := by
        rw [hnveq, XVal.le_neg] at hbtc
        exact hbtc
      have h3 := fh1 h2
      have h4 : XVal.le beta (XVal.neg (searchFuel fuel (m.make_move c) (depth - 1)
          (XVal.neg beta) (XVal.neg alpha))) = true := by
        rw [XVal.le_neg] at h3
        exact h3
      rw [hgo, if_pos h4]
      have hWge : XVal.le beta (loopVals fuel m depth (c :: rest) alpha) = true := by
        rw [loopVals_cons]
        exact XVal.le_trans hbtc
          (XVal.le_trans (XVal.le_max_right _ _) (loopVals_ge fuel m depth rest _))
      have hαW : XVal.lt alpha (loopVals fuel m depth (c :: rest) alpha) = true :=
        XVal.lt_of_lt_of_le hab hWge
      rw [if_pos hαW, if_neg (by simp [XVal.not_lt.2 hWge])]
    · have hbtc' : XVal.le beta
          (XVal.fin (-(negamaxFuel fuel (m.make_move c) (depth - 1)))) = false :=
        Bool.not_eq_true _ ▸ (by simpa using hbtc)
      have htcβ : XVal.lt
          (XVal.fin (-(negamaxFuel fuel (m.make_move c) (depth - 1)))) beta = true :=
        XVal.not_le.1 hbtc'
      by_cases htcα : XVal.le
          (XVal.fin (-(negamaxFuel fuel (m.make_move c) (depth - 1)))) alpha = true
      · -- the candidate cannot raise alpha: skipped
        have h2 : XVal.le (XVal.neg alpha)
            (XVal.fin (negamaxFuel fuel (m.make_move c) (depth - 1))) = true := by
          rw [hnveq, XVal.neg_le] at htcα
          exact htcα
        have h3 := fh2 h2
        have h4 : XVal.le (XVal.neg (searchFuel fuel (m.make_move c) (depth - 1)
            (XVal.neg beta) (XVal.neg alpha))) alpha = true := by
          rw [XVal.neg_le] at h3
          exact h3
        have h5 : XVal.lt (XVal.neg (searchFuel fuel (m.make_move c) (depth - 1)
            (XVal.neg beta) (XVal.neg alpha))) beta = true :=
          XVal.lt_of_le_of_lt h4 hab
        have h6 : XVal.le beta (XVal.neg (searchFuel fuel (m.make_move c) (depth - 1)
            (XVal.neg beta) (XVal.neg alpha))) = false := XVal.not_le.2 h5
        have h7 : XVal.lt alpha (XVal.neg (searchFuel fuel (m.make_move c) (depth - 1)
            (XVal.neg beta) (XVal.neg alpha))) = false := XVal.not_lt.2 h4
        rw [hgo, if_neg (by simp [h6]), if_neg (by simp [h7]),
          ih m depth alpha beta hturn hfuel hms' hab, loopVals_cons,
          XVal.max_eq_left htcα]
      · -- strict improvement: the child is searched in its exact window
        have htcα' : XVal.le
            (XVal.fin (-(negamaxFuel fuel (m.make_move c) (depth - 1)))) alpha = false :=
          Bool.not_eq_true _ ▸ (by simpa using htcα)
        have hαtc : XVal.lt alpha
            (XVal.fin (-(negamaxFuel fuel (m.make_move c) (depth - 1)))) = true :=
          XVal.not_le.1 htcα'
        have h2 : XVal.lt (XVal.neg beta)
            (XVal.fin (negamaxFuel fuel (m.make_move c) (depth - 1))) = true := by
          rw [hnveq, XVal.neg_lt] at htcβ
          exact htcβ
        have h3 : XVal.lt (XVal.fin (negamaxFuel fuel (m.make_move c) (depth - 1)))
            (XVal.neg alpha) = true := by
          rw [hnveq, XVal.lt_neg] at hαtc
          exact hαtc
        have h4 := fh3 h2 h3
        have hev : XVal.neg (searchFuel fuel (m.make_move c) (depth - 1)
            (XVal.neg beta) (XVal.neg alpha))
            = XVal.fin (-(negamaxFuel fuel (m.make_move c) (depth - 1))) := by
          rw [h4]
          rfl
        rw [hgo, hev, if_neg (by simp [hbtc']), if_pos hαtc,
          ih m depth (XVal.fin (-(negamaxFuel fuel (m.make_move c) (depth - 1)))) beta
            hturn hfuel hms' htcβ, loopVals_cons,
          XVal.max_eq_right (XVal.le_of_lt hαtc)]
        have hαW : XVal.lt alpha (loopVals fuel m depth rest
            (XVal.fin (-(negamaxFuel fuel (m.make_move c) (depth - 1))))) = true :=
          XVal.lt_of_lt_of_le hαtc (loopVals_ge fuel m depth rest _)
        rw [if_pos hαW]
        by_cases htW : XVal.lt (XVal.fin (-(negamaxFuel fuel (m.make_move c) (depth - 1))))
            (loopVals fuel m depth rest
              (XVal.fin (-(negamaxFuel fuel (m.make_move c) (depth - 1))))) = true
        · rw [if_pos htW]
        · have h5 : XVal.le (loopVals fuel m depth rest
              (XVal.fin (-(negamaxFuel fuel (m.make_move c) (depth - 1)))))
              (XVal.fin (-(negamaxFuel fuel (m.make_move c) (depth - 1)))) = true :=
            XVal.not_lt.1 (Bool.not_eq_true _ ▸ (by simpa using htW))
          have h6 : loopVals fuel m depth rest
              (XVal.fin (-(negamaxFuel fuel (m.make_move c) (depth - 1))))
              = XVal.fin (-(negamaxFuel fuel (m.make_move c) (depth - 1))) :=
            XVal.le_antisymm h5 (loopVals_ge fuel m depth rest _)
          rw [if_neg (by simp [htW]), h6, if_pos htcβ]

theorem countEmpty_zero_no_moves {m : TicTacToeManager} (h : countEmpty m = 0) :
    m.find_legal_moves = [] := by
  have h1 := length_findLegalAux m.board.board 0
  unfold countEmpty at h
  rw [TicTacToeManager.find_legal_moves]
  have h2 : (findLegalAux m.board.board 0).length = 0 := by rw [h1]; exact h
  exact List.eq_nil_of_length_eq_zero h2

/-- Fail-hard soundness of the fuelled alpha-beta search against the
unpruned negamax, for any state whose `turn` is `±1` and whose empty-cell
count is covered by the fuel. -/
theorem searchFuel_failhard :
    ∀ (fuel : Nat) (m : TicTacToeManager) (depth : Int) (alpha beta : XVal),
      (m.turn = 1 ∨ m.turn = -1) → countEmpty m ≤ fuel →
      XVal.lt alpha beta = true → FailHard fuel m depth alpha beta := by
  intro fuel
  induction fuel with
  | zero =>
    intro m depth alpha beta hturn hfuel hab
    have hmoves : m.find_legal_moves = [] := countEmpty_zero_no_moves (by omega)
    apply failHard_of_exact
    rw [searchFuel, negamaxFuel]
    by_cases hd : depth = 0
    · simp [hd]
    · by_cases hw : m.check_win = 0
      · simp [hd, hw, hmoves]
      · simp [hd, hw]
  | succ fuel ihf =>
    intro m depth alpha beta hturn hfuel hab
    by_cases hd : depth = 0
    · apply failHard_of_exact
      rw [searchFuel, negamaxFuel]
      simp [hd]
    · by_cases hw : m.check_win = 0
      · rcases hmv : m.find_legal_moves with _ | ⟨c, rest⟩
        · apply failHard_of_exact
          rw [searchFuel, negamaxFuel]
          simp [hd, hw, hmv]
        · have hsearch : searchFuel (fuel + 1) m depth alpha beta
              = searchGo (searchFuel fuel) m depth beta (c :: rest) alpha := by
            rw [searchFuel]
            simp [hd, hw, hmv]
          have hnega : negamaxFuel (fuel + 1) m depth
              = List.foldl
                  (fun a c' => Max.max a (-(negamaxFuel fuel (m.make_move c') (depth - 1))))
                  (-(negamaxFuel fuel (m.make_move c) (depth - 1))) rest := by
            rw [negamaxFuel]
            simp [hd, hw, hmv]
          have hms : ∀ x ∈ (c :: rest), x ∈ m.find_legal_moves := by
            intro x hx
            rw [hmv]
            exact hx
          have hclamp := searchGo_clamp fuel ihf (c :: rest) m depth alpha beta
            hturn hfuel hms hab
          have hW : loopVals fuel m depth (c :: rest) alpha
              = XVal.max alpha (XVal.fin (negamaxFuel (fuel + 1) m depth)) := by
            rw [loopVals_cons, hnega,
              show XVal.max alpha (XVal.fin (-(negamaxFuel fuel (m.make_move c) (depth - 1))))
                = XVal.max alpha (XVal.fin (-(negamaxFuel fuel (m.make_move c) (depth - 1))))
                from rfl]
            exact loopVals_max_fin fuel m depth rest alpha _
          have hres : searchFuel (fuel + 1) m depth alpha beta =
              (if XVal.lt alpha
                  (XVal.max alpha (XVal.fin (negamaxFuel (fuel + 1) m depth))) = true then
                (if XVal.lt (XVal.max alpha (XVal.fin (negamaxFuel (fuel + 1) m depth)))
                    beta = true then
                  XVal.max alpha (XVal.fin (negamaxFuel (fuel + 1) m depth))
                else beta)
              else alpha) := by
            rw [hsearch, hclamp, hW]
          refine ⟨?_, ?_, ?_⟩
          · intro hva
            rw [hres, XVal.max_eq_left hva, XVal.lt_irrefl, if_neg (by simp)]
            exact XVal.le_refl alpha
          · intro hbv
            rw [hres]
            have h1 : XVal.le beta
                (XVal.max alpha (XVal.fin (negamaxFuel (fuel + 1) m depth))) = true :=
              XVal.le_trans hbv (XVal.le_max_right _ _)
            have h2 : XVal.lt alpha
                (XVal.max alpha (XVal.fin (negamaxFuel (fuel + 1) m depth))) = true :=
              XVal.lt_of_lt_of_le hab h1
            rw [if_pos h2, if_neg (by simp [XVal.not_lt.2 h1])]
            exact XVal.le_refl beta
          · intro hav hvb
            rw [hres, XVal.max_eq_right (XVal.le_of_lt hav), if_pos hav, if_pos hvb]
      · apply failHard_of_exact
        rw [searchFuel, negamaxFuel]
        simp [hd, hw]

/-- C6: on every reachable state and for every depth, `search` called with
the full-width bounds `(-infinity, +infinity)` returns exactly the value of
the unpruned exhaustive negamax of the same depth over the same terminal
values: pruning never changes the returned value. -/
theorem search_full_width_eq_negamax (m : TicTacToeManager) (depth : Int)
    (hre : Reachable m) :
    Adversary.search m depth XVal.ninf XVal.pinf = XVal.fin (negamaxRef m depth) := by
  have hinv := reachable_inv hre
  have hFH := searchFuel_failhard m.board.board.length m depth XVal.ninf XVal.pinf
    hinv.turn_ok (countEmpty_le_length m) rfl
  exact hFH.2.2 rfl rfl

theorem search_full_width_eq_negamax_witness :
    Adversary.search (sample0.make_move 4) 3 XVal.ninf XVal.pinf
      = XVal.fin (negamaxRef (sample0.make_move 4) 3) :=
  search_full_width_eq_negamax (sample0.make_move 4) 3
    (Reachable.move sample0 4 (Reachable.init 3 (some 3)) (by decide))

theorem rootEval_fin {m : TicTacToeManager} (hre : Reachable m) {c : Nat}
    (hc : c ∈ m.find_legal_moves) (depth : Int) :
    rootEval m depth c = XVal.fin (negamaxRef (m.make_move c) (depth - 1)) := by
  have hinv := reachable_inv (Reachable.move m c hre hc)
  exact (searchFuel_failhard (m.make_move c).board.board.length (m.make_move c) (depth - 1)
    XVal.ninf XVal.pinf hinv.turn_ok (countEmpty_le_length _) rfl).2.2 rfl rfl

theorem searchRootGo_some (m : TicTacToeManager) (depth : Int) :
    ∀ (ms : List Nat) (b : Nat), List.Sorted (· < ·) (b :: ms) →
      ∃ mv, searchRootGo m depth ms (rootEval m depth b) (some b) = some mv ∧
        mv ∈ b :: ms ∧
        (∀ c ∈ b :: ms, XVal.le (rootEval m depth c) (rootEval m depth mv) = true) ∧
        (∀ c ∈ b :: ms, rootEval m depth c = rootEval m depth mv → mv ≤ c) := by
  intro ms
  induction ms with
  | nil =>
    intro b _
    refine ⟨b, rfl, List.mem_singleton_self b, ?_, ?_⟩
    · intro c hc
      rw [List.mem_singleton.1 hc]
      exact XVal.le_refl _
    · intro c hc _
      rw [List.mem_singleton.1 hc]
  | cons c ms' ih =>
    intro b hsorted
    rw [List.sorted_cons] at hsorted
    obtain ⟨hblt, hsorted'⟩ := hsorted
    have hbc : b < c := hblt c (List.mem_cons_self c ms')
    have hgo : searchRootGo m depth (c :: ms') (rootEval m depth b) (some b)
        = (if XVal.lt (rootEval m depth b) (rootEval m depth c) = true then
            searchRootGo m depth ms' (rootEval m depth c) (some c)
          else searchRootGo m depth ms' (rootEval m depth b) (some b)) := rfl
    by_cases hlt : XVal.lt (rootEval m depth b) (rootEval m depth c) = true
    · obtain ⟨mv, hres, hmem, hmax, hfirst⟩ := ih c hsorted'
      refine ⟨mv, by rw [hgo, if_pos hlt]; exact hres, List.mem_cons_of_mem b hmem, ?_, ?_⟩
      · intro x hx
        rcases List.mem_cons.1 hx with rfl | hx'
        · exact XVal.le_trans (XVal.le_of_lt hlt)
            (hmax c (List.mem_cons_self c ms'))
        · exact hmax x hx'
      · intro x hx hxeq
        rcases List.mem_cons.1 hx with rfl | hx'
        · have h1 : XVal.lt (rootEval m depth x) (rootEval m depth mv) = true :=
            XVal.lt_of_lt_of_le hlt (hmax c (List.mem_cons_self c ms'))
          rw [hxeq, XVal.lt_irrefl] at h1
          exact absurd h1 (by simp)
        · exact hfirst x hx' hxeq
    · have hle : XVal.le (rootEval m depth c) (rootEval m depth b) = true :=
        XVal.not_lt.1 (Bool.not_eq_true _ ▸ (by simpa using hlt))
      have hsorted'' : List.Sorted (· < ·) (b :: ms') := by
        rw [List.sorted_cons]
        rw [List.sorted_cons] at hsorted'
        exact ⟨fun x hx => hblt x (List.mem_cons_of_mem c hx), hsorted'.2⟩
      obtain ⟨mv, hres, hmem, hmax, hfirst⟩ := ih b hsorted''
      have hbmax : XVal.le (rootEval m depth b) (rootEval m depth mv) = true :=
        hmax b (List.mem_cons_self b ms')
      refine ⟨mv, by rw [hgo, if_neg (by simp [hlt])]; exact hres, ?_, ?_, ?_⟩
      · rcases List.mem_cons.1 hmem with rfl | hmem'
        · exact List.mem_cons_self mv _
        · exact List.mem_cons_of_mem b (List.mem_cons_of_mem c hmem')
      · intro x hx
        rcases List.mem_cons.1 hx with rfl | hx'
        · exact hmax x (List.mem_cons_self x ms')
        · rcases List.mem_cons.1 hx' with rfl | hx''
          · exact XVal.le_trans hle hbmax
          · exact hmax x (List.mem_cons_of_mem b hx'')
      · intro x hx hxeq
        rcases List.mem_cons.1 hx with rfl | hx'
        · exact hfirst x (List.mem_cons_self x ms') hxeq
        · rcases List.mem_cons.1 hx' with rfl | hx''
          · have hxb : XVal.le (rootEval m depth mv) (rootEval m depth b) = true := by
              rw [← hxeq]
              exact hle
            have hfb : rootEval m depth b = rootEval m depth mv :=
              XVal.le_antisymm hbmax hxb
            have h1 : mv ≤ b := hfirst b (List.mem_cons_self b ms') hfb
            omega
          · exact hfirst x (List.mem_cons_of_mem b hx'') hxeq

/-- C7: on every reachable state with at least one legal move and for every
depth, `search_root` returns a move from `find_legal_moves` at call time,
namely the lowest-index legal move among those attaining the maximal
evaluation — ties are broken by the first-enumerated move, since the
current best is kept unless a strictly greater evaluation appears. -/
theorem search_root_spec (m : TicTacToeManager) (depth : Int) (hre : Reachable m)
    (hne : m.find_legal_moves ≠ []) :
    ∃ mv, Adversary.search_root m depth = some mv ∧ mv ∈ m.find_legal_moves ∧
      (∀ c ∈ m.find_legal_moves,
        XVal.le (rootEval m depth c) (rootEval m depth mv) = true) ∧
      (∀ c ∈ m.find_legal_moves,
        rootEval m depth c = rootEval m depth mv → mv ≤ c) := by
  rcases hmv : m.find_legal_moves with _ | ⟨c, rest⟩
  · exact absurd hmv hne
  · have hcmem : c ∈ m.find_legal_moves := by
      rw [hmv]
      exact List.mem_cons_self c rest
    have hfinc : rootEval m depth c
        = XVal.fin (negamaxRef (m.make_move c) (depth - 1)) := rootEval_fin hre hcmem depth
    have hsorted : List.Sorted (· < ·) (c :: rest) := by
      rw [← hmv]
      exact sorted_find_legal_moves m
    have hroot : Adversary.search_root m depth
        = searchRootGo m depth (c :: rest) XVal.ninf none := by
      rw [Adversary.search_root, hmv]
    have hstep : searchRootGo m depth (c :: rest) XVal.ninf none
        = searchRootGo m depth rest (rootEval m depth c) (some c) := by
      have h1 : XVal.lt XVal.ninf (rootEval m depth c) = true := by
        rw [hfinc]
        rfl
      show (if XVal.lt XVal.ninf (rootEval m depth c) = true then
          searchRootGo m depth rest (rootEval m depth c) (some c)
        else searchRootGo m depth rest XVal.ninf none)
        = searchRootGo m depth rest (rootEval m depth c) (some c)
      rw [if_pos h1]
    obtain ⟨mv, hres, hmem, hmax, hfirst⟩ := searchRootGo_some m depth rest c hsorted
    exact ⟨mv, by rw [hroot, hstep]; exact hres, hmem, hmax, hfirst⟩

theorem search_root_spec_witness :
    (sample0.make_move 4).find_legal_moves ≠ [] ∧
    ∃ mv, Adversary.search_root (sample0.make_move 4) 2 = some mv ∧
      mv ∈ (sample0.make_move 4).find_legal_moves ∧
      (∀ c ∈ (sample0.make_move 4).find_legal_moves,
        XVal.le (rootEval (sample0.make_move 4) 2 c)
          (rootEval (sample0.make_move 4) 2 mv) = true) ∧
      (∀ c ∈ (sample0.make_move 4).find_legal_moves,
        rootEval (sample0.make_move 4) 2 c = rootEval (sample0.make_move 4) 2 mv → mv ≤ c) :=
  ⟨by decide,
    search_root_spec (sample0.make_move 4) 2
      (Reachable.move sample0 4 (Reachable.init 3 (some 3)) (by decide)) (by decide)⟩

set_option maxHeartbeats 4000000 in
/-- C8 (code bug): the end of the `search_root(9)` self-play game from the
empty 3x3 board.  Each listed move is legal where it is played, the last
three self-play choices are `search_root(depth=9)` values (4, then 8, then
5 — the engine, to move as crosses, itself picks the winning cell 5), and
after that move `check_win` is `1` while cells 1 and 7 are still empty: the
game ends in a win, not in the claimed draw.  (The three `search_root(9)`
calls of the prefix — 15281, 6229 and 1418 search nodes — exceed what the
kernel evaluates in reasonable time and are checked here from ply 4 on.) -/
theorem selfplay_not_draw :
    (0 ∈ sample0.find_legal_moves ∧
      2 ∈ (sample0.make_move 0).find_legal_moves ∧
      3 ∈ ((sample0.make_move 0).make_move 2).find_legal_moves ∧
      6 ∈ c8m3.find_legal_moves ∧
      4 ∈ c8m4.find_legal_moves ∧
      8 ∈ c8m5.find_legal_moves ∧
      5 ∈ c8m6.find_legal_moves) ∧
    Adversary.search_root c8m3 9 = some 6 ∧
    Adversary.search_root c8m4 9 = some 4 ∧
    Adversary.search_root c8m5 9 = some 8 ∧
    Adversary.search_root c8m6 9 = some 5 ∧
    (c8m6.make_move 5).check_win = 1 ∧
    (c8m6.make_move 5).find_legal_moves = [1, 7] := by
  refine ⟨by decide, ?_, ?_, ?_, ?_, by decide, by decide⟩ <;> decide

/-- C10 (code bug): two managers constructed with the default argument share
one `Board`.  After `m1.make_move(0)`, the untouched second instance — the
same `initDefault classHeap` value, whose own fields never changed — sees
cell 0 occupied and legal moves without 0, although before the move its
board was all zeros. -/
theorem default_board_shared :
    ((ManagerRef.make_move classHeap (ManagerRef.initDefault classHeap) 0).1.read
        (ManagerRef.initDefault classHeap).boardRef).board
      = [1, 0, 0, 0, 0, 0, 0, 0, 0] ∧
    ManagerRef.find_legal_moves
        (ManagerRef.make_move classHeap (ManagerRef.initDefault classHeap) 0).1
        (ManagerRef.initDefault classHeap)
      = [1, 2, 3, 4, 5, 6, 7, 8] ∧
    (classHeap.read (ManagerRef.initDefault classHeap).boardRef).board
      = [0, 0, 0, 0, 0, 0, 0, 0, 0] ∧
    (ManagerRef.initDefault classHeap).crosses = [] ∧
    (ManagerRef.initDefault classHeap).noughts = [] := by decide

end RLTicTacToe
